import Mathlib

/-!
Sudoku engine (`sudoku.c`): embedding and verified properties.

`struct sudoku` holds two `int[DIM * DIM]` arrays.  They are embedded as lists of
integers; `WF` records that both have `DIM * DIM = 81` entries.  Reads are
`List.getD _ _ 0`, writes are `List.set`.  Row and column arguments are natural
numbers: every function of the source asserts `0 <= row <= DIM - 1` and
`0 <= col <= DIM - 1`, and the theorems carry these bounds as hypotheses.

`sudoku_solve` is recursive and need not terminate on every grid, so it takes a
fuel argument that bounds the nesting depth of the recursion; `none` means the
recursion nests deeper than the fuel allows.
-/

namespace Sudoku

/-! ## Constants and data model -/

/-- DIM is the dimension of the Sudoku board. -/
abbrev DIM : Nat := 9

/-- DIMBOX is the dimension of a box. -/
abbrev DIMBOX : Nat := 3

/-- EMPTY is the code for an empty cell. -/
abbrev EMPTY : Int := 0

/-- The struct of the source: the start state and the working grid. -/
structure sudoku where
  puzzle : List Int
  solution : List Int
deriving DecidableEq

/-- Read `su->solution[k]`. -/
def sol (su : sudoku) (k : Nat) : Int := su.solution.getD k 0

/-- Read `su->puzzle[k]`. -/
def puz (su : sudoku) (k : Nat) : Int := su.puzzle.getD k 0

/-- Both arrays have `DIM * DIM` entries. -/
def WF (su : sudoku) : Prop := su.puzzle.length = 81 ∧ su.solution.length = 81

instance (su : sudoku) : Decidable (WF su) := by unfold WF; infer_instance

/-- The values taken by `for (int j = 1; j <= 9; j += 1)`. -/
def digits : List Int := [1, 2, 3, 4, 5, 6, 7, 8, 9]

/-! ## Grid store -/

/-- Source `solution_reset`: copy every puzzle entry into the working grid. -/
def solution_reset (su : sudoku) : sudoku :=
  (List.range DIM).foldl (fun s row =>
    (List.range DIM).foldl (fun s col =>
      { s with solution := s.solution.set (row * DIM + col) (puz s (row * DIM + col)) }) s) su

/-- Source `cell_erase`: the returned flag and the state after the call. -/
def cell_erase (su : sudoku) (row col : Nat) : Bool × sudoku :=
  if puz su (row * DIM + col) ≠ EMPTY then (false, su)
  else (true, { su with solution := su.solution.set (row * DIM + col) EMPTY })

/-! ## Constraint checker -/

/-- Source `row_pass`: scan the row, skipping column `col`. -/
def row_pass (su : sudoku) (row col : Nat) (num : Int) : Bool :=
  (List.range DIM).all (fun i => i == col || !(num == sol su (row * DIM + i)))

/-- Source `col_pass`: scan the column, skipping row `row`. -/
def col_pass (su : sudoku) (row col : Nat) (num : Int) : Bool :=
  (List.range DIM).all (fun i => i == row || !(num == sol su (i * DIM + col)))

/-- Source `box_pass`: the nine-way case split on the position inside the box. -/
def box_pass (su : sudoku) (row col : Nat) (num : Int) : Bool :=
  let inner_row := row % DIMBOX
  let inner_col := col % DIMBOX
  if inner_row = 0 ∧ inner_col = 0 then
    if sol su (row * DIM + col + 1) = num ∨
       sol su (row * DIM + col + 2) = num ∨
       sol su ((row + 1) * DIM + col) = num ∨
       sol su ((row + 1) * DIM + col + 1) = num ∨
       sol su ((row + 1) * DIM + col + 2) = num ∨
       sol su ((row + 2) * DIM + col) = num ∨
       sol su ((row + 2) * DIM + col + 1) = num ∨
       sol su ((row + 2) * DIM + col + 2) = num then false else true
  else if inner_row = 0 ∧ inner_col = 1 then
    if sol su (row * DIM + col + 1) = num ∨
       sol su (row * DIM + col - 1) = num ∨
       sol su ((row + 1) * DIM + col) = num ∨
       sol su ((row + 1) * DIM + col + 1) = num ∨
       sol su ((row + 1) * DIM + col - 1) = num ∨
       sol su ((row + 2) * DIM + col) = num ∨
       sol su ((row + 2) * DIM + col + 1) = num ∨
       sol su ((row + 2) * DIM + col - 1) = num then false else true
  else if inner_row = 0 ∧ inner_col = 2 then
    if sol su (row * DIM + col - 1) = num ∨
       sol su (row * DIM + col - 2) = num ∨
       sol su ((row + 1) * DIM + col) = num ∨
       sol su ((row + 1) * DIM + col - 1) = num ∨
       sol su ((row + 1) * DIM + col - 2) = num ∨
       sol su ((row + 2) * DIM + col) = num ∨
       sol su ((row + 2) * DIM + col - 1) = num ∨
       sol su ((row + 2) * DIM + col - 2) = num then false else true
  else if inner_row = 1 ∧ inner_col = 0 then
    if sol su (row * DIM + col + 1) = num ∨
       sol su (row * DIM + col + 2) = num ∨
       sol su ((row - 1) * DIM + col) = num ∨
       sol su ((row - 1) * DIM + col + 1) = num ∨
       sol su ((row - 1) * DIM + col + 2) = num ∨
       sol su ((row + 1) * DIM + col) = num ∨
       sol su ((row + 1) * DIM + col + 1) = num ∨
       sol su ((row + 1) * DIM + col + 2) = num then false else true
  else if inner_row = 1 ∧ inner_col = 1 then
    if sol su (row * DIM + col + 1) = num ∨
       sol su (row * DIM + col - 1) = num ∨
       sol su ((row + 1) * DIM + col) = num ∨
       sol su ((row + 1) * DIM + col + 1) = num ∨
       sol su ((row + 1) * DIM + col - 1) = num ∨
       sol su ((row - 1) * DIM + col) = num ∨
       sol su ((row - 1) * DIM + col + 1) = num ∨
       sol su ((row - 1) * DIM + col - 1) = num then false else true
  else if inner_row = 1 ∧ inner_col = 2 then
    if sol su (row * DIM + col - 1) = num ∨
       sol su (row * DIM + col - 2) = num ∨
       sol su ((row + 1) * DIM + col) = num ∨
       sol su ((row + 1) * DIM + col - 1) = num ∨
       sol su ((row + 1) * DIM + col - 2) = num ∨
       sol su ((row - 1) * DIM + col) = num ∨
       sol su ((row - 1) * DIM + col - 1) = num ∨
       sol su ((row - 1) * DIM + col - 2) = num then false else true
  else if inner_row = 2 ∧ inner_col = 0 then
    if sol su (row * DIM + col + 1) = num ∨
       sol su (row * DIM + col + 2) = num ∨
       sol su ((row - 1) * DIM + col) = num ∨
       sol su ((row - 1) * DIM + col + 1) = num ∨
       sol su ((row - 1) * DIM + col + 2) = num ∨
       sol su ((row - 2) * DIM + col) = num ∨
       sol su ((row - 2) * DIM + col + 1) = num ∨
       sol su ((row - 2) * DIM + col + 2) = num then false else true
  else if inner_row = 2 ∧ inner_col = 1 then
    if sol su (row * DIM + col + 1) = num ∨
       sol su (row * DIM + col - 1) = num ∨
       sol su ((row - 2) * DIM + col) = num ∨
       sol su ((row - 2) * DIM + col + 1) = num ∨
       sol su ((row - 2) * DIM + col - 1) = num ∨
       sol su ((row - 1) * DIM + col) = num ∨
       sol su ((row - 1) * DIM + col + 1) = num ∨
       sol su ((row - 1) * DIM + col - 1) = num then false else true
  else
    if sol su (row * DIM + col - 1) = num ∨
       sol su (row * DIM + col - 2) = num ∨
       sol su ((row - 2) * DIM + col) = num ∨
       sol su ((row - 2) * DIM + col - 1) = num ∨
       sol su ((row - 2) * DIM + col - 2) = num ∨
       sol su ((row - 1) * DIM + col) = num ∨
       sol su ((row - 1) * DIM + col - 1) = num ∨
       sol su ((row - 1) * DIM + col - 2) = num then false else true

/-- Source `pass`: the row, column and box checks together. -/
def pass (su : sudoku) (row col : Nat) (num : Int) : Bool :=
  if row_pass su row col num && col_pass su row col num && box_pass su row col num
  then true else false

/-- Source `cell_fill`: the returned flag and the state after the call. -/
def cell_fill (su : sudoku) (row col : Nat) (num : Int) : Bool × sudoku :=
  if sol su (row * DIM + col) ≠ EMPTY then (false, su)
  else if pass su row col num then
    (true, { su with solution := su.solution.set (row * DIM + col) num })
  else (false, su)

/-! ## Completion verifier -/

/-- Source `one_to_nine`: every `j` of 1..9 is one of the nine arguments. -/
def one_to_nine (a b c d e f g h i : Int) : Bool :=
  digits.all (fun j => a == j || b == j || c == j || d == j || e == j ||
    f == j || g == j || h == j || i == j)

/-- Source `row_solved`. -/
def row_solved (su : sudoku) : Bool :=
  (List.range DIM).all (fun row =>
    one_to_nine (sol su (row * DIM + 0)) (sol su (row * DIM + 1)) (sol su (row * DIM + 2))
      (sol su (row * DIM + 3)) (sol su (row * DIM + 4)) (sol su (row * DIM + 5))
      (sol su (row * DIM + 6)) (sol su (row * DIM + 7)) (sol su (row * DIM + 8)))

/-- Source `col_solved`. -/
def col_solved (su : sudoku) : Bool :=
  (List.range DIM).all (fun col =>
    one_to_nine (sol su (0 * DIM + col)) (sol su (1 * DIM + col)) (sol su (2 * DIM + col))
      (sol su (3 * DIM + col)) (sol su (4 * DIM + col)) (sol su (5 * DIM + col))
      (sol su (6 * DIM + col)) (sol su (7 * DIM + col)) (sol su (8 * DIM + col)))

/-- Source `box1_solved`: the three top boxes. -/
def box1_solved (su : sudoku) : Bool :=
  (List.range 3).all (fun box =>
    one_to_nine (sol su (0 * DIM + 3 * box)) (sol su (1 * DIM + 3 * box))
      (sol su (2 * DIM + 3 * box)) (sol su ((0 * DIM + 1) + 3 * box))
      (sol su ((0 * DIM + 2) + 3 * box)) (sol su ((1 * DIM + 1) + 3 * box))
      (sol su ((1 * DIM + 2) + 3 * box)) (sol su ((2 * DIM + 1) + 3 * box))
      (sol su ((2 * DIM + 2) + 3 * box)))

/-- Source `box2_solved`: the three middle boxes. -/
def box2_solved (su : sudoku) : Bool :=
  (List.range 3).all (fun box =>
    one_to_nine (sol su (3 * DIM + 3 * box)) (sol su (4 * DIM + 3 * box))
      (sol su (5 * DIM + 3 * box)) (sol su ((3 * DIM + 1) + 3 * box))
      (sol su ((4 * DIM + 2) + 3 * box)) (sol su ((5 * DIM + 1) + 3 * box))
      (sol su ((3 * DIM + 2) + 3 * box)) (sol su ((4 * DIM + 1) + 3 * box))
      (sol su ((5 * DIM + 2) + 3 * box)))

/-- Source `box3_solved`: the three bottom boxes. -/
def box3_solved (su : sudoku) : Bool :=
  (List.range 3).all (fun box =>
    one_to_nine (sol su (6 * DIM + 3 * box)) (sol su (7 * DIM + 3 * box))
      (sol su (8 * DIM + 3 * box)) (sol su ((6 * DIM + 1) + 3 * box))
      (sol su ((7 * DIM + 2) + 3 * box)) (sol su ((8 * DIM + 1) + 3 * box))
      (sol su ((6 * DIM + 2) + 3 * box)) (sol su ((7 * DIM + 1) + 3 * box))
      (sol su ((8 * DIM + 2) + 3 * box)))

/-- Source `box_solved`. -/
def box_solved (su : sudoku) : Bool :=
  if box1_solved su && box2_solved su && box3_solved su then true else false

/-- Source `puzzle_solved`. -/
def puzzle_solved (su : sudoku) : Bool :=
  if row_solved su && col_solved su && box_solved su then true else false

/-! ## Candidate enumerator -/

/-- One pass of the loop body of `cell_choices` for digit `i`; the loop state
is `(index, result, choices)`. -/
def cell_choices_step (su : sudoku) (row col : Nat) (st : Nat × Nat × List Int) (i : Int) :
    Nat × Nat × List Int :=
  if sol su (row * DIM + col) = EMPTY ∧ pass su row col i = true then
    (st.1 + 1, st.2.1 + 1, st.2.2.set st.1 i)
  else st

/-- Source `cell_choices`: the returned count and the `choices` array after the call. -/
def cell_choices (su : sudoku) (row col : Nat) (choices : List Int) : Nat × List Int :=
  let st := digits.foldl (cell_choices_step su row col) (0, 0, choices)
  (st.2.1, st.2.2)

/-! ## Backtracking solver -/

/-- The local variables of `sudoku_solve` that the scan loop updates. -/
structure scan_state where
  empty : Nat
  choices : List Int
  choices_temp : List Int
  choices_num : Nat
  row : Nat
  col : Nat
deriving DecidableEq

/-- The locals of `sudoku_solve` as initialised before the scan. -/
def scan_init : scan_state :=
  { empty := 0, choices := [1, 2, 3, 4, 5, 6, 7, 8, 9],
    choices_temp := [0, 0, 0, 0, 0, 0, 0, 0, 0],
    choices_num := 9, row := 0, col := 0 }

/-- The inner copy loop `for (i < choices_num) choices[i] = choices_temp[i]`. -/
def copy_choices (n : Nat) (choices_temp choices : List Int) : List Int :=
  (List.range n).foldl (fun ch i => ch.set i (choices_temp.getD i 0)) choices

/-- The body of the scan for cell `(i, j)`; `none` is the `return false` taken
when an empty cell has no candidate. -/
def scan_cell (su : sudoku) (i j : Nat) (s : scan_state) : Option scan_state :=
  if sol su (i * DIM + j) = EMPTY then
    let r := cell_choices su i j s.choices_temp
    if r.1 = 0 then none
    else if r.1 < s.choices_num then
      some { empty := s.empty + 1, choices := copy_choices r.1 r.2 s.choices,
             choices_temp := r.2, choices_num := r.1, row := i, col := j }
    else some { s with empty := s.empty + 1, choices_temp := r.2 }
  else some s

/-- A `for` loop over `xs` whose body may return early (`none`). -/
def loop_opt {α σ : Type} (body : α → σ → Option σ) : List α → σ → Option σ
  | [], s => some s
  | x :: xs, s =>
    match body x s with
    | none => none
    | some s1 => loop_opt body xs s1

/-- The nested scan loops of `sudoku_solve`, rows outside and columns inside. -/
def scan (su : sudoku) : Option scan_state :=
  loop_opt (fun i s => loop_opt (fun j s => scan_cell su i j s) (List.range DIM) s)
    (List.range DIM) scan_init

/-- The candidate loop at the end of `sudoku_solve`, with `solve` standing for
the recursive call.  The first component records, for every iteration, the flag
returned by `cell_fill` and the state handed to the recursive call; the second
is the result of the loop (`none` when a recursive call gives none). -/
def try_choices (solve : sudoku → Option (Bool × sudoku)) (row col : Nat) :
    List Int → sudoku → List (Bool × sudoku) × Option (Bool × sudoku)
  | [], su => ([], some (false, su))
  | d :: ds, su =>
    let f := cell_fill su row col d
    match solve f.2 with
    | none => ([f], none)
    | some (true, su2) => ([f], some (true, su2))
    | some (false, su2) =>
      let r := try_choices solve row col ds (cell_erase su2 row col).2
      (f :: r.1, r.2)

/-- Source `sudoku_solve`, with the log of its candidate loop.  The fuel bounds
the nesting depth of the recursion. -/
def sudoku_solve_log : Nat → sudoku → List (Bool × sudoku) × Option (Bool × sudoku)
  | 0, _ => ([], none)
  | fuel + 1, su =>
    if puzzle_solved su then ([], some (true, su))
    else
      match scan su with
      | none => ([], some (false, su))
      | some s =>
        if s.empty = 0 then ([], some (false, su))
        else try_choices (fun t => (sudoku_solve_log fuel t).2) s.row s.col
               (s.choices.take s.choices_num) su

/-- Source `sudoku_solve`: the returned flag and the state after the call. -/
def sudoku_solve (fuel : Nat) (su : sudoku) : Option (Bool × sudoku) :=
  (sudoku_solve_log fuel su).2

/-- The recursive calls made directly by the outermost invocation: for each, the
flag of the `cell_fill` before it and the state it is called on. -/
def solve_calls (fuel : Nat) (su : sudoku) : List (Bool × sudoku) :=
  (sudoku_solve_log fuel su).1

/-- The eight indices read by `box_pass`, branch by branch, in the order of the source. -/
def box_cells (row col : Nat) : List Nat :=
  let inner_row := row % DIMBOX
  let inner_col := col % DIMBOX
  if inner_row = 0 ∧ inner_col = 0 then
    [row * DIM + col + 1, row * DIM + col + 2,
     (row + 1) * DIM + col, (row + 1) * DIM + col + 1, (row + 1) * DIM + col + 2,
     (row + 2) * DIM + col, (row + 2) * DIM + col + 1, (row + 2) * DIM + col + 2]
  else if inner_row = 0 ∧ inner_col = 1 then
    [row * DIM + col + 1, row * DIM + col - 1,
     (row + 1) * DIM + col, (row + 1) * DIM + col + 1, (row + 1) * DIM + col - 1,
     (row + 2) * DIM + col, (row + 2) * DIM + col + 1, (row + 2) * DIM + col - 1]
  else if inner_row = 0 ∧ inner_col = 2 then
    [row * DIM + col - 1, row * DIM + col - 2,
     (row + 1) * DIM + col, (row + 1) * DIM + col - 1, (row + 1) * DIM + col - 2,
     (row + 2) * DIM + col, (row + 2) * DIM + col - 1, (row + 2) * DIM + col - 2]
  else if inner_row = 1 ∧ inner_col = 0 then
    [row * DIM + col + 1, row * DIM + col + 2,
     (row - 1) * DIM + col, (row - 1) * DIM + col + 1, (row - 1) * DIM + col + 2,
     (row + 1) * DIM + col, (row + 1) * DIM + col + 1, (row + 1) * DIM + col + 2]
  else if inner_row = 1 ∧ inner_col = 1 then
    [row * DIM + col + 1, row * DIM + col - 1,
     (row + 1) * DIM + col, (row + 1) * DIM + col + 1, (row + 1) * DIM + col - 1,
     (row - 1) * DIM + col, (row - 1) * DIM + col + 1, (row - 1) * DIM + col - 1]
  else if inner_row = 1 ∧ inner_col = 2 then
    [row * DIM + col - 1, row * DIM + col - 2,
     (row + 1) * DIM + col, (row + 1) * DIM + col - 1, (row + 1) * DIM + col - 2,
     (row - 1) * DIM + col, (row - 1) * DIM + col - 1, (row - 1) * DIM + col - 2]
  else if inner_row = 2 ∧ inner_col = 0 then
    [row * DIM + col + 1, row * DIM + col + 2,
     (row - 1) * DIM + col, (row - 1) * DIM + col + 1, (row - 1) * DIM + col + 2,
     (row - 2) * DIM + col, (row - 2) * DIM + col + 1, (row - 2) * DIM + col + 2]
  else if inner_row = 2 ∧ inner_col = 1 then
    [row * DIM + col + 1, row * DIM + col - 1,
     (row - 2) * DIM + col, (row - 2) * DIM + col + 1, (row - 2) * DIM + col - 1,
     (row - 1) * DIM + col, (row - 1) * DIM + col + 1, (row - 1) * DIM + col - 1]
  else
    [row * DIM + col - 1, row * DIM + col - 2,
     (row - 2) * DIM + col, (row - 2) * DIM + col - 1, (row - 2) * DIM + col - 2,
     (row - 1) * DIM + col, (row - 1) * DIM + col - 1, (row - 1) * DIM + col - 2]

/-- The nine cells of the block anchored at `(row - row % 3, col - col % 3)`. -/
def box_block (row col : Nat) : List Nat :=
  (List.range 3).flatMap (fun dr => (List.range 3).map (fun dc =>
    (row - row % 3 + dr) * 9 + (col - col % 3 + dc)))

/-- The block without the cell `(row, col)` itself. -/
def box_others (row col : Nat) : List Nat :=
  (box_block row col).filter (fun k => k != row * 9 + col)

/-! ## Specification vocabulary -/

/-- Cell `(r, c)` is another cell in the row, the column or the 3x3 box of `(row, col)`. -/
def peer (row col r c : Nat) : Prop :=
  (r ≠ row ∨ c ≠ col) ∧ (r = row ∨ c = col ∨ (r / 3 = row / 3 ∧ c / 3 = col / 3))

/-- Every entry of the working grid lies in 0..9. -/
def InRange (su : sudoku) : Prop := ∀ k, k < 81 → 0 ≤ sol su k ∧ sol su k ≤ 9

/-- Every entry of the start grid lies in 0..9. -/
def PuzzleInRange (su : sudoku) : Prop := ∀ k, k < 81 → 0 ≤ puz su k ∧ puz su k ≤ 9

/-- The working grid agrees with the start grid wherever the start grid is non-empty. -/
def Inv (su : sudoku) : Prop := ∀ k, k < 81 → puz su k ≠ EMPTY → sol su k = puz su k

instance (su : sudoku) : Decidable (InRange su) := by unfold InRange; infer_instance

instance (su : sudoku) : Decidable (PuzzleInRange su) := by unfold PuzzleInRange; infer_instance

instance (su : sudoku) : Decidable (Inv su) := by unfold Inv; infer_instance

/-- A completed, valid grid used as a concrete input. -/
def grid_full : List Int :=
  [5, 3, 4, 6, 7, 8, 9, 1, 2,
   6, 7, 2, 1, 9, 5, 3, 4, 8,
   1, 9, 8, 3, 4, 2, 5, 6, 7,
   8, 5, 9, 7, 6, 1, 4, 2, 3,
   4, 2, 6, 8, 5, 3, 7, 9, 1,
   7, 1, 3, 9, 2, 4, 8, 5, 6,
   9, 6, 1, 5, 3, 7, 2, 8, 4,
   2, 8, 7, 4, 1, 9, 6, 3, 5,
   3, 4, 5, 2, 8, 6, 1, 7, 9]

/-- The grid `grid_full` with the centre cell `(4, 4)` emptied. -/
def grid_hole : List Int :=
  [5, 3, 4, 6, 7, 8, 9, 1, 2,
   6, 7, 2, 1, 9, 5, 3, 4, 8,
   1, 9, 8, 3, 4, 2, 5, 6, 7,
   8, 5, 9, 7, 6, 1, 4, 2, 3,
   4, 2, 6, 8, 0, 3, 7, 9, 1,
   7, 1, 3, 9, 2, 4, 8, 5, 6,
   9, 6, 1, 5, 3, 7, 2, 8, 4,
   2, 8, 7, 4, 1, 9, 6, 3, 5,
   3, 4, 5, 2, 8, 6, 1, 7, 9]

/-- Flat indices of the cells of row `r`. -/
def row_cells (r : Nat) : List Nat := (List.range 9).map (fun c => r * 9 + c)

/-- Flat indices of the cells of column `c`. -/
def col_cells (c : Nat) : List Nat := (List.range 9).map (fun r => r * 9 + c)

/-- Flat indices of the cells of the 3x3 box in box-row `br` and box-column `bc`. -/
def block_cells (br bc : Nat) : List Nat :=
  (List.range 3).flatMap (fun dr => (List.range 3).map (fun dc =>
    (3 * br + dr) * 9 + (3 * bc + dc)))

/-- The working-grid values held by a list of cells. -/
def vals (su : sudoku) (cells : List Nat) : List Int := cells.map (sol su)

/-- Every row, every column and every 3x3 box is a permutation of 1..9. -/
def grid_valid (su : sudoku) : Prop :=
  (∀ r, r < 9 → (vals su (row_cells r)).Perm digits) ∧
  (∀ c, c < 9 → (vals su (col_cells c)).Perm digits) ∧
  (∀ br, br < 3 → ∀ bc, bc < 3 → (vals su (block_cells br bc)).Perm digits)

instance (su : sudoku) : Decidable (grid_valid su) := by unfold grid_valid; infer_instance

/-- The candidates of cell `(row, col)`: the digits of 1..9, ascending, that `pass`. -/
def cands (su : sudoku) (row col : Nat) : List Int :=
  digits.filter (fun d => pass su row col d)

/-- The cells in the order of the scan: row 0 from column 0 to 8, then row 1, and so on. -/
def all_cells : List (Nat × Nat) :=
  (List.range 9).flatMap (fun i => (List.range 9).map (fun j => (i, j)))

/-- What the scan of `sudoku_solve` has established after the cells `pre`. -/
structure scan_inv (su : sudoku) (pre : List (Nat × Nat)) (s : scan_state) : Prop where
  len_temp : s.choices_temp.length = 9
  len_choices : s.choices.length = 9
  empty_eq : s.empty = (pre.filter (fun p => decide (sol su (p.1 * 9 + p.2) = 0))).length
  lower : ∀ p ∈ pre, sol su (p.1 * 9 + p.2) = 0 →
    s.choices_num ≤ (cands su p.1 p.2).length ∧ 1 ≤ (cands su p.1 p.2).length
  num_le : s.choices_num ≤ 9
  chosen : (s.choices_num = 9 ∧ s.row = 0 ∧ s.col = 0 ∧ s.choices = digits) ∨
    ((s.row, s.col) ∈ pre ∧ sol su (s.row * 9 + s.col) = 0 ∧
      s.choices_num = (cands su s.row s.col).length ∧
      s.choices.take s.choices_num = cands su s.row s.col)

/-- The number of empty cells of the working grid. -/
def empty_count (su : sudoku) : Nat := su.solution.count EMPTY

/-- Every non-empty cell of `a` holds the same value in `b`. -/
def mono (a b : sudoku) : Prop := ∀ k, sol a k ≠ 0 → sol b k = sol a k

/-- A grid without solution: the three empty cells of row 0 can only take 1 or 2. -/
def grid_stuck : List Int :=
  [0, 0, 0, 4, 5, 6, 7, 8, 9,
   3, 3, 3, 3, 3, 3, 3, 3, 3,
   3, 3, 3, 3, 3, 3, 3, 3, 3,
   3, 3, 3, 3, 3, 3, 3, 3, 3,
   3, 3, 3, 3, 3, 3, 3, 3, 3,
   3, 3, 3, 3, 3, 3, 3, 3, 3,
   3, 3, 3, 3, 3, 3, 3, 3, 3,
   3, 3, 3, 3, 3, 3, 3, 3, 3,
   3, 3, 3, 3, 3, 3, 3, 3, 3]

/-- The grid `grid_stuck` with 1 in cell `(0, 0)`. -/
def grid_stuck_puzzle : List Int :=
  [1, 0, 0, 4, 5, 6, 7, 8, 9,
   3, 3, 3, 3, 3, 3, 3, 3, 3,
   3, 3, 3, 3, 3, 3, 3, 3, 3,
   3, 3, 3, 3, 3, 3, 3, 3, 3,
   3, 3, 3, 3, 3, 3, 3, 3, 3,
   3, 3, 3, 3, 3, 3, 3, 3, 3,
   3, 3, 3, 3, 3, 3, 3, 3, 3,
   3, 3, 3, 3, 3, 3, 3, 3, 3,
   3, 3, 3, 3, 3, 3, 3, 3, 3]

/-- The states reachable from `init` through the operations that write to the
state, called with in-range arguments. -/
inductive reachable (init : sudoku) : sudoku → Prop
  | start : reachable init init
  | fill (s : sudoku) (row col : Nat) (num : Int) :
      reachable init s → row < 9 → col < 9 → 1 ≤ num → num ≤ 9 →
      reachable init (cell_fill s row col num).2
  | erase (s : sudoku) (row col : Nat) :
      reachable init s → row < 9 → col < 9 → reachable init (cell_erase s row col).2
  | reset (s : sudoku) : reachable init s → reachable init (solution_reset s)
  | solve (s : sudoku) (fuel : Nat) (res : Bool × sudoku) :
      reachable init s → sudoku_solve fuel s = some res → reachable init res.2

/-- Grid `S` is a completion of the working grid of `su`: it has 81 entries, it
satisfies `puzzle_solved`, and it agrees with the working grid on every
non-empty cell. -/
def completes (S : List Int) (su : sudoku) : Prop :=
  S.length = 81 ∧ puzzle_solved ⟨su.puzzle, S⟩ = true ∧
    ∀ k, k < 81 → sol su k ≠ EMPTY → S.getD k 0 = sol su k

instance (S : List Int) (su : sudoku) : Decidable (completes S su) := by
  unfold completes; infer_instance

/-- A grid in which two different cells of one row hold the same digit of 1..9. -/
def row_duplicate (su : sudoku) : Prop :=
  ∃ r c1 c2, r < 9 ∧ c1 < 9 ∧ c2 < 9 ∧ c1 ≠ c2 ∧
    1 ≤ sol su (r * 9 + c1) ∧ sol su (r * 9 + c1) ≤ 9 ∧
    sol su (r * 9 + c1) = sol su (r * 9 + c2)

/-- A completed grid whose first row holds 5 twice. -/
def grid_dup_full : List Int :=
  [5, 5, 4, 6, 7, 8, 9, 1, 2,
   6, 7, 2, 1, 9, 5, 3, 4, 8,
   1, 9, 8, 3, 4, 2, 5, 6, 7,
   8, 5, 9, 7, 6, 1, 4, 2, 3,
   4, 2, 6, 8, 5, 3, 7, 9, 1,
   7, 1, 3, 9, 2, 4, 8, 5, 6,
   9, 6, 1, 5, 3, 7, 2, 8, 4,
   2, 8, 7, 4, 1, 9, 6, 3, 5,
   3, 4, 5, 2, 8, 6, 1, 7, 9]

/-- The grid `grid_dup_full` with the centre cell `(4, 4)` emptied. -/
def grid_dup_hole : List Int :=
  [5, 5, 4, 6, 7, 8, 9, 1, 2,
   6, 7, 2, 1, 9, 5, 3, 4, 8,
   1, 9, 8, 3, 4, 2, 5, 6, 7,
   8, 5, 9, 7, 6, 1, 4, 2, 3,
   4, 2, 6, 8, 0, 3, 7, 9, 1,
   7, 1, 3, 9, 2, 4, 8, 5, 6,
   9, 6, 1, 5, 3, 7, 2, 8, 4,
   2, 8, 7, 4, 1, 9, 6, 3, 5,
   3, 4, 5, 2, 8, 6, 1, 7, 9]

/-- A grid whose cell `(0, 2)` is empty and has no candidate. -/
def grid_dead : List Int :=
  [1, 2, 0, 4, 5, 6, 7, 8, 9,
   3, 3, 3, 3, 3, 3, 3, 3, 3,
   3, 3, 3, 3, 3, 3, 3, 3, 3,
   3, 3, 3, 3, 3, 3, 3, 3, 3,
   3, 3, 3, 3, 3, 3, 3, 3, 3,
   3, 3, 3, 3, 3, 3, 3, 3, 3,
   3, 3, 3, 3, 3, 3, 3, 3, 3,
   3, 3, 3, 3, 3, 3, 3, 3, 3,
   3, 3, 3, 3, 3, 3, 3, 3, 3]

/-- A call of one of the two placement operations. -/
inductive grid_op where
  | fill (row col : Nat) (num : Int)
  | erase (row col : Nat)

/-- The arguments of the call are in range: row, col in 0..8 and the digit in 1..9. -/
def grid_op.in_range : grid_op → Prop
  | .fill row col num => row < 9 ∧ col < 9 ∧ 1 ≤ num ∧ num ≤ 9
  | .erase row col => row < 9 ∧ col < 9

/-- The state after one call. -/
def apply_op (su : sudoku) : grid_op → sudoku
  | .fill row col num => (cell_fill su row col num).2
  | .erase row col => (cell_erase su row col).2

/-- The state after a sequence of calls, first call first. -/
def apply_ops (su : sudoku) (ops : List grid_op) : sudoku := ops.foldl apply_op su

/-- The uniform rule for the box constraint, as the specification words it: one
scan of the nine cells `(r0 + dr, c0 + dc)`, `dr, dc` in 0..2, of the block
anchored at `(r0, c0) = (row - row % 3, col - col % 3)`, which skips `(row, col)`
itself and gives false exactly when one of the other eight cells holds `num`. -/
def box_pass_uniform (su : sudoku) (row col : Nat) (num : Int) : Bool :=
  (List.range 3).all (fun dr => (List.range 3).all (fun dc =>
    (row - row % 3 + dr == row && col - col % 3 + dc == col) ||
      !(sol su ((row - row % 3 + dr) * DIM + (col - col % 3 + dc)) == num)))

/-- The grid with 10 in cell `(0, 0)` and every other cell empty. -/
def grid_ten : List Int :=
  [10, 0, 0, 0, 0, 0, 0, 0, 0,
   0, 0, 0, 0, 0, 0, 0, 0, 0,
   0, 0, 0, 0, 0, 0, 0, 0, 0,
   0, 0, 0, 0, 0, 0, 0, 0, 0,
   0, 0, 0, 0, 0, 0, 0, 0, 0,
   0, 0, 0, 0, 0, 0, 0, 0, 0,
   0, 0, 0, 0, 0, 0, 0, 0, 0,
   0, 0, 0, 0, 0, 0, 0, 0, 0,
   0, 0, 0, 0, 0, 0, 0, 0, 0]

/-- Source `sudoku_read`, the value stored for one ASCII input character:
`(c == PRINT[EMPTY]) ? 0 : c - 48`, where `PRINT[EMPTY]` is the underscore
(code 95) and 48 is the code of the digit zero. -/
def sudoku_read_cell (c : Char) : Int :=
  if c.toNat = 95 then 0 else (c.toNat : Int) - 48

/-- A `for` loop over `xs` whose body may return a value early (`Except.error`). -/
def loop_ret {α σ ρ : Type} (body : α → σ → Except ρ σ) : List α → σ → Except ρ σ
  | [], s => .ok s
  | x :: xs, s =>
    match body x s with
    | .error r => .error r
    | .ok s1 => loop_ret body xs s1

/-- The body of the loops of `cell_hint` for cell `(i, j)`: the early return of
the cell, or the local array `choices` after the call of `cell_choices`. -/
def cell_hint_cell (su : sudoku) (i j : Nat) (choices : List Int) :
    Except (Nat × Nat) (List Int) :=
  if sol su (i * DIM + j) = EMPTY then
    let r := cell_choices su i j choices
    if r.1 = 1 then .error (i, j) else .ok r.2
  else .ok choices

/-- Source `cell_hint`: the returned flag and the values of `*row` and `*col`
after the call; the arguments `row` and `col` are their values before it. -/
def cell_hint (su : sudoku) (row col : Nat) : Bool × Nat × Nat :=
  match loop_ret (fun i ch => loop_ret (fun j ch => cell_hint_cell su i j ch)
      (List.range DIM) ch) (List.range DIM) [0, 0, 0, 0, 0, 0, 0, 0, 0] with
  | .error (i, j) => (true, i, j)
  | .ok _ => (false, row, col)

/-- What `cell_choices` returns for a cell (the count does not depend on the
contents of the output array). -/
def choice_count (su : sudoku) (r c : Nat) : Nat :=
  (cell_choices su r c scan_init.choices_temp).1

/-- Cell `(i, j)` is empty and `cell_choices` returns exactly 1 for it. -/
def naked_single (su : sudoku) (i j : Nat) : Prop :=
  sol su (i * DIM + j) = EMPTY ∧ choice_count su i j = 1

instance (su : sudoku) (i j : Nat) : Decidable (naked_single su i j) := by
  unfold naked_single; infer_instance

/-- Cell `(i, j)` is the first naked single in row-major order. -/
def first_naked_single (su : sudoku) (i j : Nat) : Prop :=
  i < 9 ∧ j < 9 ∧ naked_single su i j ∧
    ∀ i1, i1 < 9 → ∀ j1, j1 < 9 → i1 * 9 + j1 < i * 9 + j → ¬ naked_single su i1 j1

instance (su : sudoku) (i j : Nat) : Decidable (first_naked_single su i j) := by
  unfold first_naked_single; infer_instance

theorem getD_set_zero (l : List Int) (k j : Nat) (v : Int) :
    (l.set k v).getD j 0 = if j = k ∧ k < l.length then v else l.getD j 0 := by
  simp only [List.getD_eq_getElem?_getD, List.getElem?_set]
  by_cases h : k = j
  · subst h
    by_cases h2 : k < l.length
    · simp [h2]
    · simp [h2, List.getElem?_eq_none (Nat.le_of_not_lt h2)]
  · have h' : ¬ j = k := fun e => h e.symm
    simp [h, h']

theorem sol_set (su : sudoku) (k j : Nat) (v : Int) :
    sol { su with solution := su.solution.set k v } j =
      if j = k ∧ k < su.solution.length then v else sol su j := by
  simp only [sol, getD_set_zero]

theorem puz_set (su : sudoku) (k j : Nat) (v : Int) :
    puz { su with solution := su.solution.set k v } j = puz su j := rfl

theorem row_pass_iff (su : sudoku) (row col : Nat) (num : Int) :
    row_pass su row col num = true ↔
      ∀ i, i < 9 → i ≠ col → sol su (row * 9 + i) ≠ num := by
  simp only [row_pass, List.all_eq_true, List.mem_range]
  constructor
  · intro h i hi hne
    have := h i hi
    simp [hne] at this
    exact fun e => this e.symm
  · intro h i hi
    by_cases hc : i = col
    · simp [hc]
    · have := h i hi hc
      simp [hc]
      exact fun e => this e.symm

theorem col_pass_iff (su : sudoku) (row col : Nat) (num : Int) :
    col_pass su row col num = true ↔
      ∀ i, i < 9 → i ≠ row → sol su (i * 9 + col) ≠ num := by
  simp only [col_pass, List.all_eq_true, List.mem_range]
  constructor
  · intro h i hi hne
    have := h i hi
    simp [hne] at this
    exact fun e => this e.symm
  · intro h i hi
    by_cases hc : i = row
    · simp [hc]
    · have := h i hi hc
      simp [hc]
      exact fun e => this e.symm

theorem all_leaf8 (su : sudoku) (num : Int) (i1 i2 i3 i4 i5 i6 i7 i8 : Nat) :
    (if sol su i1 = num ∨ sol su i2 = num ∨ sol su i3 = num ∨ sol su i4 = num ∨
        sol su i5 = num ∨ sol su i6 = num ∨ sol su i7 = num ∨ sol su i8 = num
      then false else true) =
    [i1, i2, i3, i4, i5, i6, i7, i8].all (fun k => !decide (sol su k = num)) := by
  rw [Bool.eq_iff_iff]
  simp only [List.all_cons, List.all_nil, Bool.and_true, Bool.and_eq_true, Bool.not_eq_true',
    decide_eq_false_iff_not]
  split
  · simp only [Bool.false_eq_true, false_iff]; tauto
  · simp only [true_iff]; tauto

theorem ite_all_congr {c : Prop} [Decidable c] {a b : Bool} {l1 l2 : List Nat} {f : Nat → Bool}
    (h1 : a = l1.all f) (h2 : b = l2.all f) :
    (if c then a else b) = (if c then l1 else l2).all f := by
  split <;> assumption

theorem box_pass_eq_all (su : sudoku) (row col : Nat) (num : Int) :
    box_pass su row col num = (box_cells row col).all (fun k => !decide (sol su k = num)) := by
  unfold box_pass box_cells
  repeat (first | exact all_leaf8 _ _ _ _ _ _ _ _ _ _ | apply ite_all_congr)

theorem box_cells_perm : ∀ row, row < 9 → ∀ col, col < 9 →
    (box_cells row col).isPerm (box_others row col) = true := by
  decide!

theorem mem_box_block (row col k : Nat) :
    k ∈ box_block row col ↔
      ∃ dr, dr < 3 ∧ ∃ dc, dc < 3 ∧ k = (row - row % 3 + dr) * 9 + (col - col % 3 + dc) := by
  simp only [box_block, List.mem_flatMap, List.mem_range, List.mem_map]
  constructor
  · rintro ⟨dr, hdr, dc, hdc, rfl⟩
    exact ⟨dr, hdr, dc, hdc, rfl⟩
  · rintro ⟨dr, hdr, dc, hdc, rfl⟩
    exact ⟨dr, hdr, dc, hdc, rfl⟩

theorem mem_box_others (row col k : Nat) :
    k ∈ box_others row col ↔
      ∃ r c, r / 3 = row / 3 ∧ c / 3 = col / 3 ∧ (r ≠ row ∨ c ≠ col) ∧ k = r * 9 + c := by
  simp only [box_others, List.mem_filter, mem_box_block, bne_iff_ne, ne_eq]
  constructor
  · rintro ⟨⟨dr, hdr, dc, hdc, rfl⟩, hne⟩
    refine ⟨row - row % 3 + dr, col - col % 3 + dc, by omega, by omega, ?_, rfl⟩
    by_contra hcon
    push_neg at hcon
    apply hne
    rw [hcon.1, hcon.2]
  · rintro ⟨r, c, h1, h2, h3, rfl⟩
    refine ⟨⟨r % 3, Nat.mod_lt _ (by norm_num), c % 3, Nat.mod_lt _ (by norm_num), ?_⟩, ?_⟩
    · have e1 : row - row % 3 + r % 3 = r := by omega
      have e2 : col - col % 3 + c % 3 = c := by omega
      rw [e1, e2]
    · omega

theorem box_pass_iff (su : sudoku) (row col : Nat) (num : Int) (hr : row < 9) (hc : col < 9) :
    box_pass su row col num = true ↔
      ∀ r c, r / 3 = row / 3 → c / 3 = col / 3 → (r ≠ row ∨ c ≠ col) →
        sol su (r * 9 + c) ≠ num := by
  have hp : (box_cells row col).Perm (box_others row col) :=
    List.isPerm_iff.mp (box_cells_perm row hr col hc)
  rw [box_pass_eq_all]
  simp only [List.all_eq_true, Bool.not_eq_true', decide_eq_false_iff_not]
  constructor
  · intro h r c h1 h2 h3
    apply h
    rw [hp.mem_iff, mem_box_others]
    exact ⟨r, c, h1, h2, h3, rfl⟩
  · intro h k hk
    rw [hp.mem_iff, mem_box_others] at hk
    obtain ⟨r, c, h1, h2, h3, rfl⟩ := hk
    exact h r c h1 h2 h3

theorem pass_eq_true_iff (su : sudoku) (row col : Nat) (num : Int) :
    pass su row col num = true ↔
      row_pass su row col num = true ∧ col_pass su row col num = true ∧
        box_pass su row col num = true := by
  unfold pass
  by_cases h1 : row_pass su row col num <;> by_cases h2 : col_pass su row col num <;>
    by_cases h3 : box_pass su row col num <;> simp [h1, h2, h3]

theorem pass_iff_peer (su : sudoku) (row col : Nat) (num : Int) (hr : row < 9) (hc : col < 9) :
    pass su row col num = true ↔
      ∀ r c, r < 9 → c < 9 → peer row col r c → sol su (r * 9 + c) ≠ num := by
  rw [pass_eq_true_iff, row_pass_iff, col_pass_iff, box_pass_iff su row col num hr hc]
  unfold peer
  constructor
  · rintro ⟨h1, h2, h3⟩ r c hr' hc' ⟨hne, hsame⟩
    rcases hsame with rfl | rfl | ⟨hb1, hb2⟩
    · exact h1 c hc' (by omega)
    · exact h2 r hr' (by omega)
    · exact h3 r c hb1 hb2 hne
  · intro h
    refine ⟨fun i hi hne => h row i hr hi ⟨Or.inr hne, Or.inl rfl⟩,
      fun i hi hne => h i col hi hc ⟨Or.inl hne, Or.inr (Or.inl rfl)⟩,
      fun r c h1 h2 h3 => h r c (by omega) (by omega) ⟨h3, Or.inr (Or.inr ⟨h1, h2⟩)⟩⟩

/-- C5. For row, col in 0..8 and digit in 1..9, `pass` is true exactly when no
other cell of the same row, the same column or the same 3x3 box holds the digit
in the working grid.  `pass` is a function of the state that returns only a
boolean, so it modifies nothing. -/
theorem constraint_checker_spec (su : sudoku) (row col : Nat) (digit : Int)
    (hr : row < 9) (hc : col < 9) (_hd1 : 1 ≤ digit) (_hd9 : digit ≤ 9) :
    pass su row col digit = true ↔
      ∀ r c, r < 9 → c < 9 → peer row col r c → sol su (r * DIM + c) ≠ digit :=
  pass_iff_peer su row col digit hr hc

theorem constraint_checker_spec_witness :
    pass ⟨grid_hole, grid_hole⟩ 4 4 5 = true ↔
      ∀ r c, r < 9 → c < 9 → peer 4 4 r c → sol ⟨grid_hole, grid_hole⟩ (r * DIM + c) ≠ 5 :=
  constraint_checker_spec ⟨grid_hole, grid_hole⟩ 4 4 5 (by decide) (by decide) (by decide) (by decide)

/-- C9. For row, col in 0..8: when the start grid is non-empty at the cell,
`cell_erase` returns false and leaves the working grid as it is; otherwise it
returns true, the cell of the working grid becomes EMPTY whatever it held, and
every other cell keeps its value.  The start grid is the same in both cases. -/
theorem cell_erase_contract (su : sudoku) (row col : Nat) (_hr : row < 9) (_hc : col < 9) :
    (cell_erase su row col).2.puzzle = su.puzzle ∧
    (puz su (row * DIM + col) ≠ EMPTY →
      (cell_erase su row col).1 = false ∧ (cell_erase su row col).2.solution = su.solution) ∧
    (puz su (row * DIM + col) = EMPTY →
      (cell_erase su row col).1 = true ∧
      sol (cell_erase su row col).2 (row * DIM + col) = EMPTY ∧
      (cell_erase su row col).2.solution.length = su.solution.length ∧
      ∀ k, k ≠ row * DIM + col → sol (cell_erase su row col).2 k = sol su k) := by
  unfold cell_erase
  by_cases h : puz su (row * DIM + col) = EMPTY
  · simp only [h, ne_eq, not_true_eq_false, if_false, false_implies, true_implies, true_and,
      List.length_set, sol_set]
    refine ⟨?_, ?_⟩
    · split
      · rfl
      · rename_i h2
        simp only [true_and, not_lt] at h2
        simp [sol, List.getD_eq_getElem?_getD, List.getElem?_eq_none h2]
    · intro k hk
      simp [hk]
  · simp [h]

theorem cell_erase_contract_witness :
    (cell_erase ⟨grid_hole, grid_full⟩ 4 4).2.puzzle = grid_hole ∧
    (puz ⟨grid_hole, grid_full⟩ (4 * DIM + 4) ≠ EMPTY →
      (cell_erase ⟨grid_hole, grid_full⟩ 4 4).1 = false ∧
        (cell_erase ⟨grid_hole, grid_full⟩ 4 4).2.solution = grid_full) ∧
    (puz ⟨grid_hole, grid_full⟩ (4 * DIM + 4) = EMPTY →
      (cell_erase ⟨grid_hole, grid_full⟩ 4 4).1 = true ∧
      sol (cell_erase ⟨grid_hole, grid_full⟩ 4 4).2 (4 * DIM + 4) = EMPTY ∧
      (cell_erase ⟨grid_hole, grid_full⟩ 4 4).2.solution.length = grid_full.length ∧
      ∀ k, k ≠ 4 * DIM + 4 →
        sol (cell_erase ⟨grid_hole, grid_full⟩ 4 4).2 k = sol ⟨grid_hole, grid_full⟩ k) :=
  cell_erase_contract ⟨grid_hole, grid_full⟩ 4 4 (by decide) (by decide)

/-- C8. On a state whose working grid agrees with the start grid wherever the
start grid is non-empty, for row, col in 0..8 and digit in 1..9: `cell_fill`
returns false and leaves the working grid as it is when the cell is non-empty in
the start grid, or non-empty in the working grid, or `pass` is false; otherwise
it returns true and the working grid changes only at the cell, which now holds
the digit.  The start grid is the same in both cases. -/
theorem cell_fill_contract (su : sudoku) (row col : Nat) (digit : Int)
    (hwf : WF su) (hinv : Inv su) (hr : row < 9) (hc : col < 9)
    (_hd1 : 1 ≤ digit) (_hd9 : digit ≤ 9) :
    (cell_fill su row col digit).2.puzzle = su.puzzle ∧
    (puz su (row * DIM + col) ≠ EMPTY ∨ sol su (row * DIM + col) ≠ EMPTY ∨
        pass su row col digit = false →
      (cell_fill su row col digit).1 = false ∧
        (cell_fill su row col digit).2.solution = su.solution) ∧
    (¬ (puz su (row * DIM + col) ≠ EMPTY ∨ sol su (row * DIM + col) ≠ EMPTY ∨
        pass su row col digit = false) →
      (cell_fill su row col digit).1 = true ∧
      sol (cell_fill su row col digit).2 (row * DIM + col) = digit ∧
      (cell_fill su row col digit).2.solution.length = su.solution.length ∧
      ∀ k, k ≠ row * DIM + col → sol (cell_fill su row col digit).2 k = sol su k) := by
  have hk : row * DIM + col < 81 := by simp only [DIM]; omega
  have hpz : puz su (row * DIM + col) ≠ EMPTY → sol su (row * DIM + col) ≠ EMPTY := by
    intro h e
    rw [hinv _ hk h] at e
    exact h e
  unfold cell_fill
  by_cases h1 : sol su (row * DIM + col) = EMPTY
  · by_cases h2 : pass su row col digit = true
    · have h3 : puz su (row * DIM + col) = EMPTY := by
        by_contra h; exact hpz h h1
      simp only [h1, h2, h3, ne_eq, not_true_eq_false, if_false, if_true, or_self,
        Bool.true_eq_false, false_implies, not_false_eq_true, true_implies, true_and,
        List.length_set, sol_set]
      refine ⟨?_, ?_⟩
      · rw [if_pos (by rw [hwf.2]; exact hk)]
      · intro k hk'
        simp [hk']
    · simp [h1, h2]
  · simp [h1]

theorem cell_fill_contract_witness :
    (cell_fill ⟨grid_hole, grid_hole⟩ 4 4 5).2.puzzle = grid_hole ∧
    (puz ⟨grid_hole, grid_hole⟩ (4 * DIM + 4) ≠ EMPTY ∨
        sol ⟨grid_hole, grid_hole⟩ (4 * DIM + 4) ≠ EMPTY ∨
        pass ⟨grid_hole, grid_hole⟩ 4 4 5 = false →
      (cell_fill ⟨grid_hole, grid_hole⟩ 4 4 5).1 = false ∧
        (cell_fill ⟨grid_hole, grid_hole⟩ 4 4 5).2.solution = grid_hole) ∧
    (¬ (puz ⟨grid_hole, grid_hole⟩ (4 * DIM + 4) ≠ EMPTY ∨
        sol ⟨grid_hole, grid_hole⟩ (4 * DIM + 4) ≠ EMPTY ∨
        pass ⟨grid_hole, grid_hole⟩ 4 4 5 = false) →
      (cell_fill ⟨grid_hole, grid_hole⟩ 4 4 5).1 = true ∧
      sol (cell_fill ⟨grid_hole, grid_hole⟩ 4 4 5).2 (4 * DIM + 4) = 5 ∧
      (cell_fill ⟨grid_hole, grid_hole⟩ 4 4 5).2.solution.length = grid_hole.length ∧
      ∀ k, k ≠ 4 * DIM + 4 →
        sol (cell_fill ⟨grid_hole, grid_hole⟩ 4 4 5).2 k = sol ⟨grid_hole, grid_hole⟩ k) :=
  cell_fill_contract ⟨grid_hole, grid_hole⟩ 4 4 5 (by decide) (by decide) (by decide)
    (by decide) (by decide) (by decide)

theorem one_to_nine_iff_subset (a b c d e f g h i : Int) :
    one_to_nine a b c d e f g h i = true ↔ digits ⊆ [a, b, c, d, e, f, g, h, i] := by
  unfold one_to_nine
  rw [List.all_eq_true]
  constructor
  · intro hall j hj
    have := hall j hj
    simp only [Bool.or_eq_true, beq_iff_eq] at this
    simp only [List.mem_cons, List.mem_singleton]
    rcases this with ((((((((h1 | h1) | h1) | h1) | h1) | h1) | h1) | h1) | h1) <;>
      simp [h1]
  · intro hsub j hj
    have := hsub hj
    simp only [List.mem_cons, List.mem_singleton, List.not_mem_nil, or_false] at this
    simp only [Bool.or_eq_true, beq_iff_eq]
    rcases this with h1 | h1 | h1 | h1 | h1 | h1 | h1 | h1 | h1 <;> simp [h1]

theorem digits_nodup : digits.Nodup := by decide

theorem mem_digits (x : Int) : x ∈ digits ↔ 1 ≤ x ∧ x ≤ 9 := by
  simp only [digits, List.mem_cons, List.mem_singleton, List.not_mem_nil, or_false]
  omega

theorem subset_iff_perm_digits (l : List Int) (hl : l.length = 9) :
    digits ⊆ l ↔ l.Perm digits := by
  constructor
  · intro h
    have hsp : digits.Subperm l := List.subperm_of_subset digits_nodup h
    exact (hsp.perm_of_length_le (by rw [hl]; decide)).symm
  · intro h
    exact h.symm.subset

theorem perm_digits_iff (l : List Int) (hl : l.length = 9) :
    l.Perm digits ↔ l.Nodup ∧ ∀ x ∈ l, 1 ≤ x ∧ x ≤ 9 := by
  constructor
  · intro h
    exact ⟨h.nodup_iff.mpr digits_nodup, fun x hx => (mem_digits x).mp (h.subset hx)⟩
  · rintro ⟨hnd, hr⟩
    have hsub : l ⊆ digits := fun x hx => (mem_digits x).mpr (hr x hx)
    have hsp : l.Subperm digits := List.subperm_of_subset hnd hsub
    exact hsp.perm_of_length_le (by rw [hl]; decide)

theorem one_to_nine_iff_perm (a b c d e f g h i : Int) :
    one_to_nine a b c d e f g h i = true ↔ [a, b, c, d, e, f, g, h, i].Perm digits := by
  rw [one_to_nine_iff_subset, subset_iff_perm_digits [a, b, c, d, e, f, g, h, i] rfl]

/-- `one_to_nine` applied to the values of nine cells, in any order of the cells. -/
theorem one_to_nine_cells (su : sudoku) (cells : List Nat) (i1 i2 i3 i4 i5 i6 i7 i8 i9 : Nat)
    (hp : [i1, i2, i3, i4, i5, i6, i7, i8, i9].Perm cells) :
    one_to_nine (sol su i1) (sol su i2) (sol su i3) (sol su i4) (sol su i5) (sol su i6)
      (sol su i7) (sol su i8) (sol su i9) = true ↔ (vals su cells).Perm digits := by
  rw [one_to_nine_iff_perm]
  have h2 : ([i1, i2, i3, i4, i5, i6, i7, i8, i9].map (sol su)).Perm (vals su cells) :=
    hp.map (sol su)
  exact ⟨fun h => h2.symm.trans h, fun h => h2.trans h⟩

theorem row_solved_iff (su : sudoku) :
    row_solved su = true ↔ ∀ r, r < 9 → (vals su (row_cells r)).Perm digits := by
  unfold row_solved
  simp only [List.all_eq_true, List.mem_range]
  refine forall_congr' fun r => imp_congr_right fun _ => ?_
  exact one_to_nine_cells su (row_cells r) _ _ _ _ _ _ _ _ _ (by
    simp [row_cells, List.range, List.range.loop, DIM])

theorem col_solved_iff (su : sudoku) :
    col_solved su = true ↔ ∀ c, c < 9 → (vals su (col_cells c)).Perm digits := by
  unfold col_solved
  simp only [List.all_eq_true, List.mem_range]
  refine forall_congr' fun c => imp_congr_right fun _ => ?_
  exact one_to_nine_cells su (col_cells c) _ _ _ _ _ _ _ _ _ (by
    simp [col_cells, List.range, List.range.loop, DIM])

theorem box1_solved_iff (su : sudoku) :
    box1_solved su = true ↔ ∀ bc, bc < 3 → (vals su (block_cells 0 bc)).Perm digits := by
  unfold box1_solved
  simp only [List.all_eq_true, List.mem_range]
  refine forall_congr' fun bc => imp_congr_right fun hbc => ?_
  refine one_to_nine_cells su (block_cells 0 bc) _ _ _ _ _ _ _ _ _ ?_
  interval_cases bc <;> decide

theorem box2_solved_iff (su : sudoku) :
    box2_solved su = true ↔ ∀ bc, bc < 3 → (vals su (block_cells 1 bc)).Perm digits := by
  unfold box2_solved
  simp only [List.all_eq_true, List.mem_range]
  refine forall_congr' fun bc => imp_congr_right fun hbc => ?_
  refine one_to_nine_cells su (block_cells 1 bc) _ _ _ _ _ _ _ _ _ ?_
  interval_cases bc <;> decide

theorem box3_solved_iff (su : sudoku) :
    box3_solved su = true ↔ ∀ bc, bc < 3 → (vals su (block_cells 2 bc)).Perm digits := by
  unfold box3_solved
  simp only [List.all_eq_true, List.mem_range]
  refine forall_congr' fun bc => imp_congr_right fun hbc => ?_
  refine one_to_nine_cells su (block_cells 2 bc) _ _ _ _ _ _ _ _ _ ?_
  interval_cases bc <;> decide

theorem box_solved_iff (su : sudoku) :
    box_solved su = true ↔
      ∀ br, br < 3 → ∀ bc, bc < 3 → (vals su (block_cells br bc)).Perm digits := by
  have h : box_solved su = true ↔
      box1_solved su = true ∧ box2_solved su = true ∧ box3_solved su = true := by
    unfold box_solved
    by_cases h1 : box1_solved su <;> by_cases h2 : box2_solved su <;>
      by_cases h3 : box3_solved su <;> simp [h1, h2, h3]
  rw [h, box1_solved_iff, box2_solved_iff, box3_solved_iff]
  constructor
  · rintro ⟨h1, h2, h3⟩ br hbr
    interval_cases br
    · exact h1
    · exact h2
    · exact h3
  · intro h
    exact ⟨h 0 (by decide), h 1 (by decide), h 2 (by decide)⟩

theorem puzzle_solved_iff_valid (su : sudoku) : puzzle_solved su = true ↔ grid_valid su := by
  have h : puzzle_solved su = true ↔
      row_solved su = true ∧ col_solved su = true ∧ box_solved su = true := by
    unfold puzzle_solved
    by_cases h1 : row_solved su <;> by_cases h2 : col_solved su <;>
      by_cases h3 : box_solved su <;> simp [h1, h2, h3]
  rw [h, row_solved_iff, col_solved_iff, box_solved_iff]
  rfl

/-- C6. For a working grid with arbitrary integer entries, `puzzle_solved` is
true exactly when each of the 9 rows, 9 columns and 9 boxes is a permutation of
1..9; `one_to_nine` (each of 1..9 occurs among the nine values) is equivalent to
the nine values being a permutation of 1..9, which is the same as being pairwise
distinct with every value in 1..9 (so none empty). -/
theorem completion_verifier_spec (su : sudoku) :
    (puzzle_solved su = true ↔ grid_valid su) ∧
    (∀ a b c d e f g h i : Int,
      one_to_nine a b c d e f g h i = true ↔ [a, b, c, d, e, f, g, h, i].Perm digits) ∧
    (∀ a b c d e f g h i : Int,
      [a, b, c, d, e, f, g, h, i].Perm digits ↔
        ([a, b, c, d, e, f, g, h, i].Nodup ∧
          ∀ x ∈ [a, b, c, d, e, f, g, h, i], x ≠ EMPTY ∧ 1 ≤ x ∧ x ≤ 9) ∧
        ∀ j : Int, 1 ≤ j → j ≤ 9 → [a, b, c, d, e, f, g, h, i].count j = 1) := by
  refine ⟨puzzle_solved_iff_valid su, one_to_nine_iff_perm, ?_⟩
  intro a b c d e f g h i
  rw [perm_digits_iff [a, b, c, d, e, f, g, h, i] rfl]
  constructor
  · rintro ⟨hnd, hr⟩
    refine ⟨⟨hnd, fun x hx => ⟨?_, hr x hx⟩⟩, ?_⟩
    · have := hr x hx
      simp only [EMPTY]
      omega
    · intro j h1 h9
      have hp := (perm_digits_iff [a, b, c, d, e, f, g, h, i] rfl).mpr ⟨hnd, hr⟩
      rw [hp.count_eq]
      exact List.count_eq_one_of_mem digits_nodup ((mem_digits j).mpr ⟨h1, h9⟩)
  · rintro ⟨⟨hnd, hr⟩, _⟩
    exact ⟨hnd, fun x hx => (hr x hx).2⟩

theorem cell_choices_fold_empty (su : sudoku) (row col : Nat)
    (he : sol su (row * DIM + col) = EMPTY) (ds : List Int) :
    ∀ (k m : Nat) (a : List Int),
      k + (ds.filter (fun d => pass su row col d)).length ≤ a.length →
      ds.foldl (cell_choices_step su row col) (k, m, a) =
        (k + (ds.filter (fun d => pass su row col d)).length,
         m + (ds.filter (fun d => pass su row col d)).length,
         a.take k ++ ds.filter (fun d => pass su row col d) ++
           a.drop (k + (ds.filter (fun d => pass su row col d)).length)) := by
  induction ds with
  | nil =>
    intro k m a _
    simp
  | cons d ds ih =>
    intro k m a hlen
    rw [List.foldl_cons]
    by_cases hp : pass su row col d = true
    · have hstep : cell_choices_step su row col (k, m, a) d = (k + 1, m + 1, a.set k d) := by
        simp [cell_choices_step, he, hp]
      simp only [List.filter_cons, hp, if_true, List.length_cons] at hlen ⊢
      rw [hstep, ih (k + 1) (m + 1) (a.set k d) (by rw [List.length_set]; omega)]
      have hk : k < a.length := by omega
      have e1 : (a.set k d).take (k + 1) = a.take k ++ [d] := by
        rw [List.set_eq_take_append_cons_drop, if_pos hk]
        rw [List.take_append_eq_append_take]
        simp [List.length_take, Nat.min_eq_left (Nat.le_of_lt hk)]
      have e2 : (a.set k d).drop (k + 1 + (ds.filter (fun d => pass su row col d)).length) =
          a.drop (k + ((ds.filter (fun d => pass su row col d)).length + 1)) := by
        rw [List.drop_set_of_lt _ _ (by omega)]
        congr 1
        omega
      rw [e1, e2]
      simp only [Prod.mk.injEq, List.append_assoc, List.singleton_append, and_true]
      omega
    · have hstep : cell_choices_step su row col (k, m, a) d = (k, m, a) := by
        simp [cell_choices_step, hp]
      simp only [List.filter_cons, hp, Bool.false_eq_true, if_false] at hlen ⊢
      rw [hstep, ih k m a hlen]

theorem cell_choices_fold_full (su : sudoku) (row col : Nat)
    (he : sol su (row * DIM + col) ≠ EMPTY) (ds : List Int) (st : Nat × Nat × List Int) :
    ds.foldl (cell_choices_step su row col) st = st := by
  induction ds with
  | nil => rfl
  | cons d ds ih =>
    rw [List.foldl_cons]
    have : cell_choices_step su row col st d = st := by
      simp [cell_choices_step, he]
    rw [this, ih]

theorem cands_length_le (su : sudoku) (row col : Nat) : (cands su row col).length ≤ 9 := by
  unfold cands
  exact (List.length_filter_le _ _).trans (by decide)

theorem cell_choices_empty (su : sudoku) (row col : Nat) (choices : List Int)
    (he : sol su (row * DIM + col) = EMPTY) (hlen : 9 ≤ choices.length) :
    cell_choices su row col choices =
      ((cands su row col).length,
        cands su row col ++ choices.drop (cands su row col).length) := by
  unfold cell_choices
  have h := cell_choices_fold_empty su row col he digits 0 0 choices (by
    have := cands_length_le su row col
    unfold cands at this
    omega)
  simp only [h, Nat.zero_add, List.take_zero, List.nil_append]
  rfl

theorem cell_choices_full (su : sudoku) (row col : Nat) (choices : List Int)
    (he : sol su (row * DIM + col) ≠ EMPTY) :
    cell_choices su row col choices = (0, choices) := by
  unfold cell_choices
  rw [cell_choices_fold_full su row col he]

theorem cands_sorted (su : sudoku) (row col : Nat) :
    (cands su row col).Pairwise (fun a b => a < b) := by
  unfold cands
  exact List.Pairwise.filter _ (by decide)

theorem mem_cands (su : sudoku) (row col : Nat) (d : Int) :
    d ∈ cands su row col ↔ 1 ≤ d ∧ d ≤ 9 ∧ pass su row col d = true := by
  unfold cands
  rw [List.mem_filter, mem_digits]
  tauto

theorem valid_cell_range (su : sudoku) (h : grid_valid su) (row col : Nat)
    (hr : row < 9) (hc : col < 9) :
    1 ≤ sol su (row * 9 + col) ∧ sol su (row * 9 + col) ≤ 9 := by
  have hp := h.1 row hr
  have hm : sol su (row * 9 + col) ∈ vals su (row_cells row) := by
    simp only [vals, row_cells, List.mem_map, List.mem_range]
    exact ⟨row * 9 + col, ⟨col, hc, rfl⟩, rfl⟩
  exact (mem_digits _).mp (hp.subset hm)

/-- C7. For row, col in 0..8 and an output array of nine entries: when the cell
is empty, `cell_choices` returns the number of candidates and writes them to the
front of the array, in strictly ascending order, the candidates being exactly the
digits of 1..9 for which `pass` holds, and the rest of the array is untouched;
when the cell is non-empty it returns 0 and writes nothing.  The values written
always lie in 1..9, and on a solved grid the count is 0. -/
theorem cell_choices_spec (su : sudoku) (row col : Nat) (choices : List Int)
    (hr : row < 9) (hc : col < 9) (hlen : choices.length = 9) :
    (sol su (row * DIM + col) = EMPTY →
      (cell_choices su row col choices).1 = (cands su row col).length ∧
      (cell_choices su row col choices).2.take (cell_choices su row col choices).1 =
        cands su row col ∧
      (cell_choices su row col choices).2.drop (cell_choices su row col choices).1 =
        choices.drop (cell_choices su row col choices).1 ∧
      (cell_choices su row col choices).2.length = choices.length) ∧
    (sol su (row * DIM + col) ≠ EMPTY → cell_choices su row col choices = (0, choices)) ∧
    (cands su row col).Pairwise (fun a b => a < b) ∧
    (∀ d, d ∈ cands su row col ↔ 1 ≤ d ∧ d ≤ 9 ∧ pass su row col d = true) ∧
    (∀ d, d ∈ (cell_choices su row col choices).2.take (cell_choices su row col choices).1 →
      1 ≤ d ∧ d ≤ 9) ∧
    (puzzle_solved su = true → (cell_choices su row col choices).1 = 0) := by
  have hle := cands_length_le su row col
  have hE : sol su (row * DIM + col) = EMPTY →
      (cell_choices su row col choices).1 = (cands su row col).length ∧
      (cell_choices su row col choices).2.take (cell_choices su row col choices).1 =
        cands su row col ∧
      (cell_choices su row col choices).2.drop (cell_choices su row col choices).1 =
        choices.drop (cell_choices su row col choices).1 ∧
      (cell_choices su row col choices).2.length = choices.length := by
    intro he
    rw [cell_choices_empty su row col choices he (by omega)]
    refine ⟨rfl, ?_, ?_, ?_⟩
    · simp
    · simp
    · simp only [List.length_append, List.length_drop]
      omega
  refine ⟨hE, cell_choices_full su row col choices, cands_sorted su row col,
    mem_cands su row col, ?_, ?_⟩
  · intro d hd
    by_cases he : sol su (row * DIM + col) = EMPTY
    · rw [(hE he).2.1] at hd
      have := (mem_cands su row col d).mp hd
      exact ⟨this.1, this.2.1⟩
    · rw [cell_choices_full su row col choices he] at hd
      simp at hd
  · intro hs
    have hv := (puzzle_solved_iff_valid su).mp hs
    have := valid_cell_range su hv row col hr hc
    rw [cell_choices_full su row col choices (by simp only [DIM, EMPTY]; omega)]

theorem cell_choices_spec_witness :
    (sol ⟨grid_hole, grid_hole⟩ (4 * DIM + 4) = EMPTY →
      (cell_choices ⟨grid_hole, grid_hole⟩ 4 4 scan_init.choices_temp).1 =
        (cands ⟨grid_hole, grid_hole⟩ 4 4).length ∧
      (cell_choices ⟨grid_hole, grid_hole⟩ 4 4 scan_init.choices_temp).2.take
          (cell_choices ⟨grid_hole, grid_hole⟩ 4 4 scan_init.choices_temp).1 =
        cands ⟨grid_hole, grid_hole⟩ 4 4 ∧
      (cell_choices ⟨grid_hole, grid_hole⟩ 4 4 scan_init.choices_temp).2.drop
          (cell_choices ⟨grid_hole, grid_hole⟩ 4 4 scan_init.choices_temp).1 =
        scan_init.choices_temp.drop
          (cell_choices ⟨grid_hole, grid_hole⟩ 4 4 scan_init.choices_temp).1 ∧
      (cell_choices ⟨grid_hole, grid_hole⟩ 4 4 scan_init.choices_temp).2.length =
        scan_init.choices_temp.length) ∧
    (sol ⟨grid_hole, grid_hole⟩ (4 * DIM + 4) ≠ EMPTY →
      cell_choices ⟨grid_hole, grid_hole⟩ 4 4 scan_init.choices_temp =
        (0, scan_init.choices_temp)) ∧
    (cands ⟨grid_hole, grid_hole⟩ 4 4).Pairwise (fun a b => a < b) ∧
    (∀ d, d ∈ cands ⟨grid_hole, grid_hole⟩ 4 4 ↔
      1 ≤ d ∧ d ≤ 9 ∧ pass ⟨grid_hole, grid_hole⟩ 4 4 d = true) ∧
    (∀ d, d ∈ (cell_choices ⟨grid_hole, grid_hole⟩ 4 4 scan_init.choices_temp).2.take
        (cell_choices ⟨grid_hole, grid_hole⟩ 4 4 scan_init.choices_temp).1 →
      1 ≤ d ∧ d ≤ 9) ∧
    (puzzle_solved ⟨grid_hole, grid_hole⟩ = true →
      (cell_choices ⟨grid_hole, grid_hole⟩ 4 4 scan_init.choices_temp).1 = 0) :=
  cell_choices_spec ⟨grid_hole, grid_hole⟩ 4 4 scan_init.choices_temp
    (by decide) (by decide) (by decide)

theorem copy_choices_eq (tmp ch : List Int) :
    ∀ n, n ≤ tmp.length → n ≤ ch.length →
      copy_choices n tmp ch = tmp.take n ++ ch.drop n := by
  intro n
  induction n with
  | zero => intro _ _; simp [copy_choices]
  | succ n ih =>
    intro h1 h2
    have h := ih (by omega) (by omega)
    unfold copy_choices at h ⊢
    rw [List.range_succ, List.foldl_append, h]
    simp only [List.foldl_cons, List.foldl_nil]
    apply List.ext_getElem
    · simp only [List.length_set, List.length_append, List.length_take, List.length_drop]
      omega
    · intro i hi1 hi2
      simp only [List.getElem_set, List.getElem_append, List.length_take, List.getElem_take,
        List.getElem_drop]
      have hmin : min n tmp.length = n := by omega
      have hmin' : min (n + 1) tmp.length = n + 1 := by omega
      simp only [hmin, hmin']
      by_cases hin : n = i
      · subst hin
        simp [List.getD_eq_getElem?_getD, List.getElem?_eq_getElem (show n < tmp.length by omega)]
      · simp only [hin, if_false]
        by_cases hlt : i < n
        · simp [hlt, show i < n + 1 by omega]
        · simp only [hlt, show ¬ i < n + 1 by omega, dite_false]
          congr 1
          omega

theorem loop_opt_append {α σ : Type} (body : α → σ → Option σ) (xs ys : List α) (s : σ) :
    loop_opt body (xs ++ ys) s = (loop_opt body xs s).bind (loop_opt body ys) := by
  induction xs generalizing s with
  | nil => rfl
  | cons x xs ih =>
    simp only [List.cons_append, loop_opt]
    cases body x s with
    | none => rfl
    | some s1 => exact ih s1

theorem loop_opt_map {α β σ : Type} (body : β → σ → Option σ) (f : α → β) (xs : List α)
    (s : σ) : loop_opt body (xs.map f) s = loop_opt (fun x => body (f x)) xs s := by
  induction xs generalizing s with
  | nil => rfl
  | cons x xs ih =>
    simp only [List.map_cons, loop_opt]
    cases body (f x) s with
    | none => rfl
    | some s1 => exact ih s1

theorem loop_opt_nested {α β σ : Type} (g : α → β → σ → Option σ) (xs : List α)
    (ys : List β) (s : σ) :
    loop_opt (fun i s => loop_opt (g i) ys s) xs s =
      loop_opt (fun (p : α × β) s => g p.1 p.2 s)
        (xs.flatMap (fun i => ys.map (fun j => (i, j)))) s := by
  induction xs generalizing s with
  | nil => rfl
  | cons x xs ih =>
    rw [List.flatMap_cons, loop_opt_append, loop_opt_map]
    simp only [loop_opt]
    cases loop_opt (g x) ys s with
    | none => rfl
    | some s1 => exact ih s1

theorem scan_eq_flat (su : sudoku) :
    scan su = loop_opt (fun (p : Nat × Nat) s => scan_cell su p.1 p.2 s) all_cells scan_init := by
  unfold scan all_cells
  exact loop_opt_nested (fun i j s => scan_cell su i j s) _ _ _

theorem loop_opt_inv {α σ : Type} (body : α → σ → Option σ) (P : List α → σ → Prop)
    (hstep : ∀ pre x s s1, P pre s → body x s = some s1 → P (pre ++ [x]) s1)
    (xs : List α) :
    ∀ pre s s1, P pre s → loop_opt body xs s = some s1 → P (pre ++ xs) s1 := by
  induction xs with
  | nil =>
    intro pre s s1 hP h
    simp only [loop_opt, Option.some.injEq] at h
    subst h
    simpa using hP
  | cons x xs ih =>
    intro pre s s1 hP h
    simp only [loop_opt] at h
    cases hb : body x s with
    | none => rw [hb] at h; exact absurd h (by simp)
    | some s2 =>
      rw [hb] at h
      have := ih (pre ++ [x]) s2 s1 (hstep pre x s s2 hP hb) h
      simpa using this

theorem loop_opt_none {α σ : Type} (body : α → σ → Option σ) (xs : List α) :
    ∀ s, loop_opt body xs s = none → ∃ x ∈ xs, ∃ s1, body x s1 = none := by
  induction xs with
  | nil => intro s h; simp [loop_opt] at h
  | cons x xs ih =>
    intro s h
    simp only [loop_opt] at h
    cases hb : body x s with
    | none => exact ⟨x, List.mem_cons_self _ _, s, hb⟩
    | some s2 =>
      rw [hb] at h
      obtain ⟨y, hy, s1, h1⟩ := ih s2 h
      exact ⟨y, List.mem_cons_of_mem _ hy, s1, h1⟩

theorem scan_inv_init (su : sudoku) : scan_inv su [] scan_init where
  len_temp := rfl
  len_choices := rfl
  empty_eq := rfl
  lower := by intro p hp; simp at hp
  num_le := by decide
  chosen := Or.inl ⟨rfl, rfl, rfl, rfl⟩

theorem scan_cell_none (su : sudoku) (i j : Nat) (s : scan_state)
    (hl : s.choices_temp.length = 9) (h : scan_cell su i j s = none) :
    sol su (i * 9 + j) = 0 ∧ cands su i j = [] := by
  unfold scan_cell at h
  by_cases he : sol su (i * DIM + j) = EMPTY
  · rw [if_pos he, cell_choices_empty su i j _ he (by omega)] at h
    simp only at h
    by_cases h0 : (cands su i j).length = 0
    · exact ⟨he, List.length_eq_zero.mp h0⟩
    · rw [if_neg h0] at h
      split at h <;> simp at h
  · rw [if_neg he] at h
    simp at h

theorem scan_inv_step (su : sudoku) (pre : List (Nat × Nat)) (x : Nat × Nat)
    (s s1 : scan_state) (hP : scan_inv su pre s) (h : scan_cell su x.1 x.2 s = some s1) :
    scan_inv su (pre ++ [x]) s1 := by
  obtain ⟨i, j⟩ := x
  simp only at h
  unfold scan_cell at h
  have hcl := cands_length_le su i j
  by_cases he : sol su (i * DIM + j) = EMPTY
  · have he' : sol su (i * 9 + j) = 0 := he
    rw [if_pos he, cell_choices_empty su i j _ he (by rw [hP.len_temp])] at h
    simp only at h
    by_cases h0 : (cands su i j).length = 0
    · rw [if_pos h0] at h; simp at h
    · rw [if_neg h0] at h
      have hfilter : ((pre ++ [(i, j)]).filter
          (fun p => decide (sol su (p.1 * 9 + p.2) = 0))).length = s.empty + 1 := by
        rw [List.filter_append, List.length_append, ← hP.empty_eq]
        simp [he']
      have hlt : (cands su i j ++ s.choices_temp.drop (cands su i j).length).length = 9 := by
        rw [List.length_append, List.length_drop, hP.len_temp]
        omega
      by_cases hn : (cands su i j).length < s.choices_num
      · rw [if_pos hn] at h
        simp only [Option.some.injEq] at h
        subst h
        have hcopy := copy_choices_eq
          (cands su i j ++ s.choices_temp.drop (cands su i j).length) s.choices
          (cands su i j).length (by rw [hlt]; exact hcl) (by rw [hP.len_choices]; exact hcl)
        have htake : (cands su i j ++ s.choices_temp.drop (cands su i j).length).take
            (cands su i j).length = cands su i j := by simp
        refine ⟨hlt, ?_, hfilter.symm, ?_, hcl, Or.inr ⟨?_, he', rfl, ?_⟩⟩
        · simp only [hcopy, htake, List.length_append, List.length_drop, hP.len_choices]
          omega
        · intro p hp hpe
          rcases List.mem_append.mp hp with hp | hp
          · have := hP.lower p hp hpe
            exact ⟨Nat.le_of_lt (Nat.lt_of_lt_of_le hn this.1), this.2⟩
          · simp only [List.mem_singleton] at hp
            subst hp
            have h2 : 1 ≤ (cands su i j).length := by omega
            exact ⟨le_refl _, h2⟩
        · simp
        · simp only [hcopy, htake]
          simp
      · rw [if_neg hn] at h
        simp only [Option.some.injEq] at h
        subst h
        refine ⟨hlt, hP.len_choices, hfilter.symm, ?_, hP.num_le, ?_⟩
        · intro p hp hpe
          rcases List.mem_append.mp hp with hp | hp
          · exact hP.lower p hp hpe
          · simp only [List.mem_singleton] at hp
            subst hp
            have h1 : s.choices_num ≤ (cands su i j).length := by omega
            have h2 : 1 ≤ (cands su i j).length := by omega
            exact ⟨h1, h2⟩
        · rcases hP.chosen with hc | ⟨hc1, hc2⟩
          · exact Or.inl hc
          · exact Or.inr ⟨List.mem_append_left _ hc1, hc2⟩
  · have he' : ¬ sol su (i * 9 + j) = 0 := he
    rw [if_neg he] at h
    simp only [Option.some.injEq] at h
    subst h
    refine ⟨hP.len_temp, hP.len_choices, ?_, ?_, hP.num_le, ?_⟩
    · rw [List.filter_append, List.length_append, ← hP.empty_eq]
      simp [he']
    · intro p hp hpe
      rcases List.mem_append.mp hp with hp | hp
      · exact hP.lower p hp hpe
      · simp only [List.mem_singleton] at hp
        subst hp
        exact absurd hpe he'
    · rcases hP.chosen with hc | ⟨hc1, hc2⟩
      · exact Or.inl hc
      · exact Or.inr ⟨List.mem_append_left _ hc1, hc2⟩

theorem scan_some_inv (su : sudoku) (s : scan_state) (h : scan su = some s) :
    scan_inv su all_cells s := by
  rw [scan_eq_flat] at h
  have := loop_opt_inv (fun (p : Nat × Nat) s => scan_cell su p.1 p.2 s) (scan_inv su)
    (fun pre x s s1 hP hb => scan_inv_step su pre x s s1 hP hb) all_cells [] scan_init s
    (scan_inv_init su) h
  simpa using this

theorem mem_all_cells (p : Nat × Nat) : p ∈ all_cells ↔ p.1 < 9 ∧ p.2 < 9 := by
  obtain ⟨i, j⟩ := p
  simp only [all_cells, List.mem_flatMap, List.mem_range, List.mem_map, Prod.mk.injEq]
  constructor
  · rintro ⟨a, ha, b, hb, rfl, rfl⟩
    exact ⟨ha, hb⟩
  · rintro ⟨h1, h2⟩
    exact ⟨i, h1, j, h2, rfl, rfl⟩

theorem loop_opt_none_inv {α σ : Type} (body : α → σ → Option σ) (P : List α → σ → Prop)
    (hstep : ∀ pre x s s1, P pre s → body x s = some s1 → P (pre ++ [x]) s1)
    (xs : List α) :
    ∀ pre s, P pre s → loop_opt body xs s = none →
      ∃ pre1 x s1, x ∈ xs ∧ P pre1 s1 ∧ body x s1 = none := by
  induction xs with
  | nil => intro pre s _ h; simp [loop_opt] at h
  | cons x xs ih =>
    intro pre s hP h
    simp only [loop_opt] at h
    cases hb : body x s with
    | none => exact ⟨pre, x, s, List.mem_cons_self _ _, hP, hb⟩
    | some s2 =>
      rw [hb] at h
      obtain ⟨pre1, y, s1, hy, hP1, h1⟩ := ih (pre ++ [x]) s2 (hstep pre x s s2 hP hb) h
      exact ⟨pre1, y, s1, List.mem_cons_of_mem _ hy, hP1, h1⟩

/-- The scan returns early only at an empty cell without candidates. -/
theorem scan_none_dead (su : sudoku) (h : scan su = none) :
    ∃ r c, r < 9 ∧ c < 9 ∧ sol su (r * 9 + c) = 0 ∧ cands su r c = [] := by
  rw [scan_eq_flat] at h
  obtain ⟨pre1, x, s1, hx, hP1, h1⟩ :=
    loop_opt_none_inv (fun (p : Nat × Nat) s => scan_cell su p.1 p.2 s) (scan_inv su)
      (fun pre x s s1 hP hb => scan_inv_step su pre x s s1 hP hb) all_cells [] scan_init
      (scan_inv_init su) h
  have hm := (mem_all_cells x).mp hx
  have := scan_cell_none su x.1 x.2 s1 hP1.len_temp h1
  exact ⟨x.1, x.2, hm.1, hm.2, this.1, this.2⟩

/-- After a complete scan every empty cell has at least one candidate. -/
theorem scan_some_alive (su : sudoku) (s : scan_state) (h : scan su = some s)
    (r c : Nat) (hr : r < 9) (hc : c < 9) (he : sol su (r * 9 + c) = 0) :
    s.choices_num ≤ (cands su r c).length ∧ 1 ≤ (cands su r c).length :=
  (scan_some_inv su s h).lower (r, c) ((mem_all_cells (r, c)).mpr ⟨hr, hc⟩) he

/-- The counter `empty` is zero exactly when no cell is empty. -/
theorem scan_empty_zero_iff (su : sudoku) (s : scan_state) (h : scan su = some s) :
    s.empty = 0 ↔ ∀ r c, r < 9 → c < 9 → sol su (r * 9 + c) ≠ 0 := by
  rw [(scan_some_inv su s h).empty_eq, List.length_eq_zero, List.filter_eq_nil_iff]
  constructor
  · intro hall r c hr hc
    have := hall (r, c) ((mem_all_cells (r, c)).mpr ⟨hr, hc⟩)
    simpa using this
  · intro hall p hp
    have hm := (mem_all_cells p).mp hp
    simpa using hall p.1 p.2 hm.1 hm.2

theorem cands_eq_digits_of_length (su : sudoku) (r c : Nat) (h : 9 ≤ (cands su r c).length) :
    cands su r c = digits := by
  unfold cands at h ⊢
  have hle := List.length_filter_le (fun d => pass su r c d) digits
  have h9 : digits.length = 9 := rfl
  have heq : (digits.filter (fun d => pass su r c d)).length = digits.length := by omega
  exact List.filter_eq_self.mpr (List.filter_length_eq_length.mp heq)

theorem pass_of_full (su : sudoku) (r c : Nat) (h : 9 ≤ (cands su r c).length) (d : Int)
    (h1 : 1 ≤ d) (h9 : d ≤ 9) : pass su r c d = true := by
  have hd : d ∈ cands su r c := by
    rw [cands_eq_digits_of_length su r c h]
    exact (mem_digits d).mpr ⟨h1, h9⟩
  exact ((mem_cands su r c d).mp hd).2.2

/-- When an in-range grid has an empty cell and every empty cell has nine
candidates, the cell `(0, 0)` is empty. -/
theorem origin_empty_of_all_full (su : sudoku) (hR : InRange su)
    (hfull : ∀ r c, r < 9 → c < 9 → sol su (r * 9 + c) = 0 → 9 ≤ (cands su r c).length)
    (r c : Nat) (hr : r < 9) (hc : c < 9) (he : sol su (r * 9 + c) = 0) :
    sol su 0 = 0 := by
  by_contra h0
  have hd := hR 0 (by decide)
  have hd1 : 1 ≤ sol su 0 := by omega
  have hrow : ∀ c', c' < 9 → c' ≠ 0 → sol su (0 * 9 + c') = 0 → False := by
    intro c' hc' hne he'
    have hp := pass_of_full su 0 c' (hfull 0 c' (by decide) hc' he') (sol su 0) hd1 hd.2
    have := (row_pass_iff su 0 c' _).mp ((pass_eq_true_iff su 0 c' _).mp hp).1 0 (by decide)
      (fun e => hne e.symm)
    exact this rfl
  have hcol : ∀ r', r' < 9 → r' ≠ 0 → sol su (r' * 9 + 0) = 0 → False := by
    intro r' hr' hne he'
    have hp := pass_of_full su r' 0 (hfull r' 0 hr' (by decide) he') (sol su 0) hd1 hd.2
    have := (col_pass_iff su r' 0 _).mp ((pass_eq_true_iff su r' 0 _).mp hp).2.1 0 (by decide)
      (fun e => hne e.symm)
    exact this (by simp)
  by_cases hr0 : r = 0
  · subst hr0
    by_cases hc0 : c = 0
    · subst hc0
      exact h0 he
    · exact hrow c hc hc0 he
  · by_cases hc0 : c = 0
    · subst hc0
      exact hcol r hr hr0 he
    · by_cases hv : sol su (r * 9 + 0) = 0
      · exact hcol r hr hr0 hv
      · have hvr := hR (r * 9 + 0) (by omega)
        have hp := pass_of_full su r c (hfull r c hr hc he) (sol su (r * 9 + 0))
          (by omega) hvr.2
        have := (row_pass_iff su r c _).mp ((pass_eq_true_iff su r c _).mp hp).1 0 (by decide)
          (fun e => hc0 e.symm)
        exact this rfl

/-- The cell chosen by the scan of an in-range grid with an empty cell: it is
in range and empty, and the digits to try are its candidates, of which there is
at least one. -/
theorem scan_chosen (su : sudoku) (s : scan_state) (h : scan su = some s) (hR : InRange su)
    (hne : s.empty ≠ 0) :
    s.row < 9 ∧ s.col < 9 ∧ sol su (s.row * 9 + s.col) = 0 ∧
      s.choices.take s.choices_num = cands su s.row s.col ∧
      1 ≤ (cands su s.row s.col).length := by
  have hI := scan_some_inv su s h
  rcases hI.chosen with ⟨h9, hr0, hc0, hch⟩ | ⟨hm, he, hn, hch⟩
  · have hex : ∃ r c, r < 9 ∧ c < 9 ∧ sol su (r * 9 + c) = 0 := by
      by_contra hcon
      push_neg at hcon
      exact hne ((scan_empty_zero_iff su s h).mpr hcon)
    obtain ⟨r, c, hr, hc, he⟩ := hex
    have hfull : ∀ r c, r < 9 → c < 9 → sol su (r * 9 + c) = 0 →
        9 ≤ (cands su r c).length := by
      intro r c hr hc he
      have := (scan_some_alive su s h r c hr hc he).1
      omega
    have h00 : sol su (0 * 9 + 0) = 0 := origin_empty_of_all_full su hR hfull r c hr hc he
    have hc00 := cands_eq_digits_of_length su 0 0 (hfull 0 0 (by decide) (by decide) h00)
    rw [hr0, hc0, hc00, hch, h9]
    exact ⟨by decide, by decide, h00, rfl, by decide⟩
  · have hm' := (mem_all_cells _).mp hm
    exact ⟨hm'.1, hm'.2, he, hch, (scan_some_alive su s h _ _ hm'.1 hm'.2 he).2⟩

theorem sudoku_solve_zero (su : sudoku) : sudoku_solve 0 su = none := rfl

theorem sudoku_solve_succ (fuel : Nat) (su : sudoku) :
    sudoku_solve (fuel + 1) su =
      if puzzle_solved su = true then some (true, su)
      else match scan su with
        | none => some (false, su)
        | some s =>
          if s.empty = 0 then some (false, su)
          else (try_choices (sudoku_solve fuel) s.row s.col
                  (s.choices.take s.choices_num) su).2 := by
  show (sudoku_solve_log (fuel + 1) su).2 = _
  rw [sudoku_solve_log]
  by_cases hs : puzzle_solved su = true
  · simp only [hs, if_true]
  · simp only [hs, if_false, Bool.false_eq_true]
    cases scan su with
    | none => rfl
    | some s =>
      by_cases he : s.empty = 0
      · simp only [he, if_true]
      · simp only [he, if_false]
        rfl

theorem solve_calls_succ (fuel : Nat) (su : sudoku) :
    solve_calls (fuel + 1) su =
      if puzzle_solved su = true then []
      else match scan su with
        | none => []
        | some s =>
          if s.empty = 0 then []
          else (try_choices (sudoku_solve fuel) s.row s.col
                  (s.choices.take s.choices_num) su).1 := by
  show (sudoku_solve_log (fuel + 1) su).1 = _
  rw [sudoku_solve_log]
  by_cases hs : puzzle_solved su = true
  · simp only [hs, if_true]
  · simp only [hs, if_false, Bool.false_eq_true]
    cases scan su with
    | none => rfl
    | some s =>
      by_cases he : s.empty = 0
      · simp only [he, if_true]
      · simp only [he, if_false]
        rfl

theorem try_choices_nil (solve : sudoku → Option (Bool × sudoku)) (row col : Nat)
    (su : sudoku) : try_choices solve row col [] su = ([], some (false, su)) := rfl

theorem try_choices_cons_none (solve : sudoku → Option (Bool × sudoku)) (row col : Nat)
    (d : Int) (ds : List Int) (su : sudoku)
    (h : solve (cell_fill su row col d).2 = none) :
    try_choices solve row col (d :: ds) su = ([cell_fill su row col d], none) := by
  simp only [try_choices, h]

theorem try_choices_cons_true (solve : sudoku → Option (Bool × sudoku)) (row col : Nat)
    (d : Int) (ds : List Int) (su s2 : sudoku)
    (h : solve (cell_fill su row col d).2 = some (true, s2)) :
    try_choices solve row col (d :: ds) su = ([cell_fill su row col d], some (true, s2)) := by
  simp only [try_choices, h]

theorem try_choices_cons_false (solve : sudoku → Option (Bool × sudoku)) (row col : Nat)
    (d : Int) (ds : List Int) (su s2 : sudoku)
    (h : solve (cell_fill su row col d).2 = some (false, s2)) :
    try_choices solve row col (d :: ds) su =
      (cell_fill su row col d :: (try_choices solve row col ds (cell_erase s2 row col).2).1,
        (try_choices solve row col ds (cell_erase s2 row col).2).2) := by
  simp only [try_choices, h]

/-- Partial-correctness rule for the candidate loop: `I` holds of the state at
the start of every iteration, `R` of the result. -/
theorem try_choices_result (solve : sudoku → Option (Bool × sudoku)) (row col : Nat)
    (I : sudoku → Prop) (R : Bool × sudoku → Prop) (ds : List Int)
    (htrue : ∀ t d s2, I t → d ∈ ds → solve (cell_fill t row col d).2 = some (true, s2) →
      R (true, s2))
    (hfalse : ∀ t d s2, I t → d ∈ ds → solve (cell_fill t row col d).2 = some (false, s2) →
      I (cell_erase s2 row col).2)
    (hexit : ∀ t, I t → R (false, t)) :
    ∀ es, (∀ d ∈ es, d ∈ ds) → ∀ su, I su → ∀ r,
      (try_choices solve row col es su).2 = some r → R r := by
  intro es
  induction es with
  | nil =>
    intro _ su hI r h
    rw [try_choices_nil] at h
    simp only [Option.some.injEq] at h
    subst h
    exact hexit su hI
  | cons d es ih =>
    intro hsub su hI r h
    have hd : d ∈ ds := hsub d (List.mem_cons_self _ _)
    have hsub' : ∀ e ∈ es, e ∈ ds := fun e he => hsub e (List.mem_cons_of_mem _ he)
    cases hs : solve (cell_fill su row col d).2 with
    | none =>
      rw [try_choices_cons_none _ _ _ _ _ _ hs] at h
      simp at h
    | some p =>
      obtain ⟨b, s2⟩ := p
      cases b with
      | true =>
        rw [try_choices_cons_true _ _ _ _ _ _ _ hs] at h
        simp only [Option.some.injEq] at h
        subst h
        exact htrue su d s2 hI hd hs
      | false =>
        rw [try_choices_cons_false _ _ _ _ _ _ _ hs] at h
        exact ih hsub' _ (hfalse su d s2 hI hd hs) r h

/-- Totality rule for the candidate loop. -/
theorem try_choices_total (solve : sudoku → Option (Bool × sudoku)) (row col : Nat)
    (I : sudoku → Prop) (ds : List Int)
    (hsome : ∀ t d, I t → d ∈ ds → ∃ r, solve (cell_fill t row col d).2 = some r)
    (hfalse : ∀ t d s2, I t → d ∈ ds → solve (cell_fill t row col d).2 = some (false, s2) →
      I (cell_erase s2 row col).2) :
    ∀ es, (∀ d ∈ es, d ∈ ds) → ∀ su, I su →
      ∃ r, (try_choices solve row col es su).2 = some r := by
  intro es
  induction es with
  | nil =>
    intro _ su _
    exact ⟨(false, su), rfl⟩
  | cons d es ih =>
    intro hsub su hI
    have hd : d ∈ ds := hsub d (List.mem_cons_self _ _)
    have hsub' : ∀ e ∈ es, e ∈ ds := fun e he => hsub e (List.mem_cons_of_mem _ he)
    obtain ⟨⟨b, s2⟩, hs⟩ := hsome su d hI hd
    cases b with
    | true =>
      rw [try_choices_cons_true _ _ _ _ _ _ _ hs]
      exact ⟨_, rfl⟩
    | false =>
      rw [try_choices_cons_false _ _ _ _ _ _ _ hs]
      exact ih hsub' _ (hfalse su d s2 hI hd hs)

/-- Rule for the log of the candidate loop: `P` holds of every recorded call. -/
theorem try_choices_log (solve : sudoku → Option (Bool × sudoku)) (row col : Nat)
    (I : sudoku → Prop) (P : Bool × sudoku → Prop) (ds : List Int)
    (hcall : ∀ t d, I t → d ∈ ds → P (cell_fill t row col d))
    (hfalse : ∀ t d s2, I t → d ∈ ds → solve (cell_fill t row col d).2 = some (false, s2) →
      I (cell_erase s2 row col).2) :
    ∀ es, (∀ d ∈ es, d ∈ ds) → ∀ su, I su →
      ∀ c ∈ (try_choices solve row col es su).1, P c := by
  intro es
  induction es with
  | nil =>
    intro _ su _ c hc
    simp [try_choices_nil] at hc
  | cons d es ih =>
    intro hsub su hI c hc
    have hd : d ∈ ds := hsub d (List.mem_cons_self _ _)
    have hsub' : ∀ e ∈ es, e ∈ ds := fun e he => hsub e (List.mem_cons_of_mem _ he)
    cases hs : solve (cell_fill su row col d).2 with
    | none =>
      rw [try_choices_cons_none _ _ _ _ _ _ hs] at hc
      simp only [List.mem_singleton] at hc
      subst hc
      exact hcall su d hI hd
    | some p =>
      obtain ⟨b, s2⟩ := p
      cases b with
      | true =>
        rw [try_choices_cons_true _ _ _ _ _ _ _ hs] at hc
        simp only [List.mem_singleton] at hc
        subst hc
        exact hcall su d hI hd
      | false =>
        rw [try_choices_cons_false _ _ _ _ _ _ _ hs] at hc
        rcases List.mem_cons.mp hc with hc | hc
        · subst hc
          exact hcall su d hI hd
        · exact ih hsub' _ (hfalse su d s2 hI hd hs) c hc

/-- A call of `sudoku_solve` that returns true ends in a state that `puzzle_solved` accepts. -/
theorem solve_true_solved : ∀ fuel su su1, sudoku_solve fuel su = some (true, su1) →
    puzzle_solved su1 = true := by
  intro fuel
  induction fuel with
  | zero => intro su su1 h; simp [sudoku_solve_zero] at h
  | succ fuel ih =>
    intro su su1 h
    rw [sudoku_solve_succ] at h
    split at h
    · rename_i hs
      simp only [Option.some.injEq, Prod.mk.injEq, true_and] at h
      subst h
      exact hs
    · split at h
      · simp at h
      · rename_i s _
        split at h
        · simp at h
        · exact try_choices_result (sudoku_solve fuel) s.row s.col (fun _ => True)
            (fun r => r.1 = true → puzzle_solved r.2 = true) (s.choices.take s.choices_num)
            (fun t d s2 _ _ hs _ => ih _ s2 hs)
            (fun _ _ _ _ _ _ => trivial)
            (fun t _ hf => by simp at hf)
            _ (fun _ hd => hd) su trivial (true, su1) h rfl

/-- A relation between entry and exit states that holds across `cell_fill` and
`cell_erase` holds across `sudoku_solve`. -/
theorem solve_rel (Q : sudoku → sudoku → Prop) (hrefl : ∀ a, Q a a)
    (htrans : ∀ a b c, Q a b → Q b c → Q a c)
    (hfill : ∀ s r c d, Q s (cell_fill s r c d).2)
    (herase : ∀ s r c, Q s (cell_erase s r c).2) :
    ∀ fuel su r, sudoku_solve fuel su = some r → Q su r.2 := by
  intro fuel
  induction fuel with
  | zero => intro su r h; simp [sudoku_solve_zero] at h
  | succ fuel ih =>
    intro su r h
    rw [sudoku_solve_succ] at h
    split at h
    · simp only [Option.some.injEq] at h
      subst h
      exact hrefl su
    · split at h
      · simp only [Option.some.injEq] at h
        subst h
        exact hrefl su
      · rename_i s _
        split at h
        · simp only [Option.some.injEq] at h
          subst h
          exact hrefl su
        · exact try_choices_result (sudoku_solve fuel) s.row s.col (fun t => Q su t)
            (fun r => Q su r.2) (s.choices.take s.choices_num)
            (fun t d s2 hI _ hs => htrans _ _ _ (htrans _ _ _ hI (hfill t _ _ d)) (ih _ _ hs))
            (fun t d s2 hI _ hs => htrans _ _ _
              (htrans _ _ _ (htrans _ _ _ hI (hfill t _ _ d)) (ih _ _ hs)) (herase s2 _ _))
            (fun t hI => hI)
            _ (fun _ hd => hd) su (hrefl su) r h

theorem cell_fill_puzzle (su : sudoku) (r c : Nat) (d : Int) :
    (cell_fill su r c d).2.puzzle = su.puzzle := by
  unfold cell_fill
  split
  · rfl
  · split <;> rfl

theorem cell_fill_length (su : sudoku) (r c : Nat) (d : Int) :
    (cell_fill su r c d).2.solution.length = su.solution.length := by
  unfold cell_fill
  split
  · rfl
  · split
    · simp
    · rfl

theorem cell_erase_puzzle (su : sudoku) (r c : Nat) :
    (cell_erase su r c).2.puzzle = su.puzzle := by
  unfold cell_erase
  split <;> rfl

theorem cell_erase_length (su : sudoku) (r c : Nat) :
    (cell_erase su r c).2.solution.length = su.solution.length := by
  unfold cell_erase
  split
  · rfl
  · simp

theorem cell_fill_wf (su : sudoku) (r c : Nat) (d : Int) (h : WF su) :
    WF (cell_fill su r c d).2 := by
  unfold WF at h ⊢
  rw [cell_fill_puzzle, cell_fill_length]
  exact h

theorem cell_erase_wf (su : sudoku) (r c : Nat) (h : WF su) : WF (cell_erase su r c).2 := by
  unfold WF at h ⊢
  rw [cell_erase_puzzle, cell_erase_length]
  exact h

theorem cell_fill_other (su : sudoku) (r c : Nat) (d : Int) (k : Nat) (hk : k ≠ r * 9 + c) :
    sol (cell_fill su r c d).2 k = sol su k := by
  unfold cell_fill
  split
  · rfl
  · split
    · rw [sol_set, if_neg (fun h => hk h.1)]
    · rfl

theorem cell_erase_other (su : sudoku) (r c : Nat) (k : Nat) (hk : k ≠ r * 9 + c) :
    sol (cell_erase su r c).2 k = sol su k := by
  unfold cell_erase
  split
  · rfl
  · rw [sol_set, if_neg (fun h => hk h.1)]

theorem cell_fill_puz (su : sudoku) (r c : Nat) (d : Int) (k : Nat) :
    puz (cell_fill su r c d).2 k = puz su k := by
  unfold puz
  rw [cell_fill_puzzle]

theorem cell_erase_puz (su : sudoku) (r c : Nat) (k : Nat) :
    puz (cell_erase su r c).2 k = puz su k := by
  unfold puz
  rw [cell_erase_puzzle]

/-- The value at the target cell after `cell_fill`: the old value, or the digit. -/
theorem cell_fill_at (su : sudoku) (r c : Nat) (d : Int) :
    sol (cell_fill su r c d).2 (r * 9 + c) = sol su (r * 9 + c) ∨
      sol (cell_fill su r c d).2 (r * 9 + c) = d := by
  unfold cell_fill
  split
  · exact Or.inl rfl
  · split
    · rw [sol_set]
      split
      · exact Or.inr rfl
      · exact Or.inl rfl
    · exact Or.inl rfl

/-- The value at the target cell after `cell_erase`: the old value, or EMPTY. -/
theorem cell_erase_at (su : sudoku) (r c : Nat) :
    sol (cell_erase su r c).2 (r * 9 + c) = sol su (r * 9 + c) ∨
      sol (cell_erase su r c).2 (r * 9 + c) = 0 := by
  unfold cell_erase
  split
  · exact Or.inl rfl
  · rw [sol_set]
    split
    · exact Or.inr rfl
    · exact Or.inl rfl

theorem cell_fill_range (su : sudoku) (r c : Nat) (d : Int) (h : InRange su)
    (hd : 0 ≤ d ∧ d ≤ 9) : InRange (cell_fill su r c d).2 := by
  intro k hk
  by_cases hkx : k = r * 9 + c
  · subst hkx
    rcases cell_fill_at su r c d with e | e
    · rw [e]; exact h _ hk
    · rw [e]; exact hd
  · rw [cell_fill_other su r c d k hkx]
    exact h k hk

theorem cell_erase_range (su : sudoku) (r c : Nat) (h : InRange su) :
    InRange (cell_erase su r c).2 := by
  intro k hk
  by_cases hkx : k = r * 9 + c
  · subst hkx
    rcases cell_erase_at su r c with e | e
    · rw [e]; exact h _ hk
    · rw [e]; decide
  · rw [cell_erase_other su r c k hkx]
    exact h k hk

theorem cell_fill_inv (su : sudoku) (r c : Nat) (d : Int) (h : Inv su) :
    Inv (cell_fill su r c d).2 := by
  intro k hk hp
  rw [cell_fill_puz] at hp ⊢
  unfold cell_fill
  split
  · exact h k hk hp
  · rename_i he
    split
    · rw [sol_set]
      split
      · rename_i hkx
        have := h k hk hp
        rw [hkx.1] at this hp
        simp only [DIM, EMPTY, ne_eq, not_not] at he
        rw [he] at this
        exact absurd this.symm hp
      · exact h k hk hp
    · exact h k hk hp

theorem cell_erase_inv (su : sudoku) (r c : Nat) (h : Inv su) : Inv (cell_erase su r c).2 := by
  intro k hk hp
  rw [cell_erase_puz] at hp ⊢
  unfold cell_erase
  split
  · exact h k hk hp
  · rename_i he
    rw [sol_set]
    split
    · rename_i hkx
      rw [hkx.1] at hp
      simp only [DIM, EMPTY, ne_eq, not_not] at he
      exact absurd he hp
    · exact h k hk hp

/-- Across `sudoku_solve` the start grid and the size of the working grid stay
the same, and the state invariant is kept. -/
theorem solve_frame (fuel : Nat) (su : sudoku) (r : Bool × sudoku)
    (h : sudoku_solve fuel su = some r) :
    r.2.puzzle = su.puzzle ∧ r.2.solution.length = su.solution.length ∧ (Inv su → Inv r.2) := by
  refine solve_rel (fun a b => b.puzzle = a.puzzle ∧ b.solution.length = a.solution.length ∧
    (Inv a → Inv b)) ?_ ?_ ?_ ?_ fuel su r h
  · intro a
    exact ⟨rfl, rfl, id⟩
  · intro a b c h1 h2
    exact ⟨h2.1.trans h1.1, h2.2.1.trans h1.2.1, fun hi => h2.2.2 (h1.2.2 hi)⟩
  · intro s r c d
    exact ⟨cell_fill_puzzle s r c d, cell_fill_length s r c d, cell_fill_inv s r c d⟩
  · intro s r c
    exact ⟨cell_erase_puzzle s r c, cell_erase_length s r c, cell_erase_inv s r c⟩

theorem solve_wf (fuel : Nat) (su : sudoku) (r : Bool × sudoku)
    (h : sudoku_solve fuel su = some r) (hwf : WF su) : WF r.2 := by
  have := solve_frame fuel su r h
  unfold WF at hwf ⊢
  rw [this.1, this.2.1]
  exact hwf

theorem cands_range (su : sudoku) (r c : Nat) (d : Int) (hd : d ∈ cands su r c) :
    0 ≤ d ∧ d ≤ 9 := by
  have := (mem_cands su r c d).mp hd
  omega

/-- On an in-range grid, `sudoku_solve` keeps every entry in range and never
changes a non-empty cell. -/
theorem solve_mono_range : ∀ fuel su r, InRange su → sudoku_solve fuel su = some r →
    InRange r.2 ∧ mono su r.2 := by
  intro fuel
  induction fuel with
  | zero => intro su r _ h; simp [sudoku_solve_zero] at h
  | succ fuel ih =>
    intro su r hR h
    rw [sudoku_solve_succ] at h
    have hrefl : InRange su ∧ mono su su := ⟨hR, fun _ _ => rfl⟩
    split at h
    · simp only [Option.some.injEq] at h
      subst h
      exact hrefl
    · split at h
      · simp only [Option.some.injEq] at h
        subst h
        exact hrefl
      · rename_i s hs
        split at h
        · simp only [Option.some.injEq] at h
          subst h
          exact hrefl
        · rename_i hne
          obtain ⟨hr, hc, hX, hch, _⟩ := scan_chosen su s hs hR hne
          rw [hch] at h
          refine try_choices_result (sudoku_solve fuel) s.row s.col
            (fun t => InRange t ∧
              ∀ k, k ≠ s.row * 9 + s.col → sol su k ≠ 0 → sol t k = sol su k)
            (fun r => InRange r.2 ∧ mono su r.2) (cands su s.row s.col)
            ?_ ?_ ?_ _ (fun _ hd => hd) su ⟨hR, fun _ _ _ => rfl⟩ r h
          · intro t d s2 hI hd hsol
            have hf := cell_fill_range t s.row s.col d hI.1 (cands_range su _ _ d hd)
            have h2 := ih _ _ hf hsol
            refine ⟨h2.1, ?_⟩
            intro k hk
            have hkx : k ≠ s.row * 9 + s.col := fun e => hk (e ▸ hX)
            have e1 := hI.2 k hkx hk
            have e2 := cell_fill_other t s.row s.col d k hkx
            rw [← e1]
            rw [← e2]
            exact h2.2 k (by rw [e2, e1]; exact hk)
          · intro t d s2 hI hd hsol
            have hf := cell_fill_range t s.row s.col d hI.1 (cands_range su _ _ d hd)
            have h2 := ih _ _ hf hsol
            refine ⟨cell_erase_range s2 _ _ h2.1, ?_⟩
            intro k hkx hk
            have e1 := hI.2 k hkx hk
            have e2 := cell_fill_other t s.row s.col d k hkx
            rw [cell_erase_other s2 _ _ k hkx, ← e1, ← e2]
            exact h2.2 k (by rw [e2, e1]; exact hk)
          · intro t hI
            refine ⟨hI.1, ?_⟩
            intro k hk
            exact hI.2 k (fun e => hk (e ▸ hX)) hk

theorem set_getD_self (l : List Int) (k : Nat) : l.set k (l.getD k 0) = l := by
  apply List.ext_getElem
  · simp
  · intro i h1 h2
    simp only [List.getElem_set]
    split
    · rename_i hki
      subst hki
      simp [List.getD_eq_getElem?_getD, List.getElem?_eq_getElem h2]
    · rfl

/-- A successful or refused `cell_fill` on an empty cell followed by `cell_erase`
of the same cell gives back the state before the fill. -/
theorem erase_fill_undo (su : sudoku) (r c : Nat) (d : Int) (hinv : Inv su)
    (hr : r < 9) (hc : c < 9) (he : sol su (r * 9 + c) = 0) :
    (cell_erase (cell_fill su r c d).2 r c).2 = su := by
  have hk : r * 9 + c < 81 := by omega
  have hp : puz su (r * 9 + c) = 0 := by
    by_contra hp
    have := hinv _ hk hp
    rw [he] at this
    exact hp this.symm
  have hset : su.solution.set (r * 9 + c) 0 = su.solution := by
    have := set_getD_self su.solution (r * 9 + c)
    unfold sol at he
    rw [he] at this
    exact this
  unfold cell_erase
  rw [cell_fill_puz, if_neg (by simp only [DIM, EMPTY, ne_eq, not_not]; exact hp)]
  unfold cell_fill
  split
  · simp only [DIM, EMPTY]
    rw [hset]
  · split
    · simp only [DIM, EMPTY, List.set_set]
      rw [hset]
    · simp only [DIM, EMPTY]
      rw [hset]

/-- Undo discipline: on an in-range state that satisfies the invariant, a call
that returns false leaves the state as it found it. -/
theorem solve_false_undo : ∀ fuel su su1, InRange su → Inv su →
    sudoku_solve fuel su = some (false, su1) → su1 = su := by
  intro fuel
  induction fuel with
  | zero => intro su su1 _ _ h; simp [sudoku_solve_zero] at h
  | succ fuel ih =>
    intro su su1 hR hinv h
    rw [sudoku_solve_succ] at h
    split at h
    · simp at h
    · split at h
      · simp only [Option.some.injEq, Prod.mk.injEq, true_and] at h
        exact h.symm
      · rename_i s hs
        split at h
        · simp only [Option.some.injEq, Prod.mk.injEq, true_and] at h
          exact h.symm
        · rename_i hne
          obtain ⟨hr, hc, hX, hch, _⟩ := scan_chosen su s hs hR hne
          rw [hch] at h
          refine try_choices_result (sudoku_solve fuel) s.row s.col
            (fun t => t = su) (fun r => r.1 = false → r.2 = su) (cands su s.row s.col)
            ?_ ?_ ?_ _ (fun _ hd => hd) su rfl (false, su1) h rfl
          · intro t d s2 _ _ _ hf
            simp at hf
          · intro t d s2 hI hd hsol
            subst hI
            have hf := cell_fill_range t s.row s.col d hR (cands_range t _ _ d hd)
            have h2 := ih _ _ hf (cell_fill_inv t _ _ d hinv) hsol
            rw [h2]
            exact erase_fill_undo t s.row s.col d hinv hr hc hX
          · intro t hI _
            exact hI

/-- A grid that keeps all non-empty cells of another has no more empty cells,
and has as many only when the two are the same grid. -/
theorem count_zero_mono : ∀ (a b : List Int), a.length = b.length →
    (∀ k, a.getD k 0 ≠ 0 → b.getD k 0 = a.getD k 0) →
    b.count 0 ≤ a.count 0 ∧ (b.count 0 = a.count 0 → b = a) := by
  intro a
  induction a with
  | nil =>
    intro b hl _
    have : b = [] := List.length_eq_zero.mp hl.symm
    subst this
    exact ⟨le_refl _, fun _ => rfl⟩
  | cons x a ih =>
    intro b hl hm
    cases b with
    | nil => simp at hl
    | cons y b =>
      have hl' : a.length = b.length := by simpa using hl
      have hm' : ∀ k, a.getD k 0 ≠ 0 → b.getD k 0 = a.getD k 0 := fun k hk => by
        have := hm (k + 1)
        simpa using this hk
      have h0 := hm 0
      simp only [List.getD_cons_zero] at h0
      obtain ⟨ih1, ih2⟩ := ih b hl' hm'
      simp only [List.count_cons, beq_iff_eq]
      by_cases hx : x = 0
      · by_cases hy : y = 0
        · simp only [hx, hy, if_true]
          refine ⟨by omega, fun he => ?_⟩
          rw [ih2 (by omega)]
        · simp only [hx, hy, if_true, if_false]
          refine ⟨by omega, fun he => ?_⟩
          omega
      · have hy : y = x := h0 hx
        have hy0 : ¬ y = 0 := by rw [hy]; exact hx
        simp only [hx, hy0, if_false]
        refine ⟨by omega, fun he => ?_⟩
        rw [ih2 (by omega), hy]

theorem empty_count_mono (a b : sudoku) (hl : a.solution.length = b.solution.length)
    (hm : mono a b) :
    empty_count b ≤ empty_count a ∧ (empty_count b = empty_count a → b.solution = a.solution) :=
  count_zero_mono a.solution b.solution hl hm

theorem pass_congr (a b : sudoku) (h : a.solution = b.solution) (r c : Nat) (d : Int) :
    pass a r c d = pass b r c d := by
  obtain ⟨pa, sa⟩ := a
  obtain ⟨pb, sb⟩ := b
  simp only at h
  subst h
  rfl

theorem sol_congr (a b : sudoku) (h : a.solution = b.solution) (k : Nat) :
    sol a k = sol b k := by
  unfold sol
  rw [h]

/-- Filling an empty in-bounds cell with a digit that passes removes one empty cell. -/
theorem cell_fill_success (su : sudoku) (r c : Nat) (d : Int)
    (hk : r * 9 + c < su.solution.length) (he : sol su (r * 9 + c) = 0)
    (hp : pass su r c d = true) :
    (cell_fill su r c d).1 = true ∧ sol (cell_fill su r c d).2 (r * 9 + c) = d := by
  unfold cell_fill
  rw [if_neg (by simp only [DIM, EMPTY, ne_eq, not_not]; exact he), if_pos hp]
  refine ⟨rfl, ?_⟩
  rw [sol_set, if_pos ⟨rfl, hk⟩]

/-- Inside the candidate loop every recursive call is on a grid with fewer empty
cells than the grid at entry. -/
theorem fill_decreases (su t : sudoku) (r c : Nat) (d : Int)
    (hlen : su.solution.length = 81) (htl : t.solution.length = 81)
    (hr : r < 9) (hc : c < 9) (hX : sol su (r * 9 + c) = 0) (hd : d ∈ cands su r c)
    (hm : ∀ k, k ≠ r * 9 + c → sol su k ≠ 0 → sol t k = sol su k) :
    empty_count (cell_fill t r c d).2 < empty_count su := by
  have hmono : mono su (cell_fill t r c d).2 := by
    intro k hk
    have hkx : k ≠ r * 9 + c := fun e => hk (e ▸ hX)
    rw [cell_fill_other t r c d k hkx]
    exact hm k hkx hk
  have hM := empty_count_mono su (cell_fill t r c d).2
    (by rw [cell_fill_length, hlen, htl]) hmono
  by_contra hlt
  have heq := hM.2 (by omega)
  have hfX : sol (cell_fill t r c d).2 (r * 9 + c) = 0 := by
    rw [sol_congr _ _ heq]; exact hX
  have hd' := (mem_cands su r c d).mp hd
  by_cases htX : sol t (r * 9 + c) = 0
  · by_cases hp : pass t r c d = true
    · have := (cell_fill_success t r c d (by omega) htX hp).2
      rw [hfX] at this
      omega
    · have hft : (cell_fill t r c d).2 = t := by
        unfold cell_fill
        rw [if_neg (by simp only [DIM, EMPTY, ne_eq, not_not]; exact htX), if_neg hp]
      rw [hft] at heq
      rw [pass_congr t su heq] at hp
      exact hp hd'.2.2
  · have hft : (cell_fill t r c d).2 = t := by
      unfold cell_fill
      rw [if_pos (by simp only [DIM, EMPTY, ne_eq]; exact htX)]
    rw [hft] at hfX
    exact htX hfX

theorem empty_count_le (su : sudoku) (h : su.solution.length = 81) : empty_count su ≤ 81 := by
  unfold empty_count
  rw [← h]
  exact List.count_le_length _ _

/-- Termination: on an in-range grid, fuel above the number of empty cells
suffices for `sudoku_solve` to return. -/
theorem solve_total : ∀ fuel su, WF su → InRange su → empty_count su < fuel →
    ∃ r, sudoku_solve fuel su = some r := by
  intro fuel
  induction fuel with
  | zero => intro su _ _ h; omega
  | succ fuel ih =>
    intro su hwf hR hfuel
    rw [sudoku_solve_succ]
    split
    · exact ⟨_, rfl⟩
    · split
      · exact ⟨_, rfl⟩
      · rename_i s hs
        split
        · exact ⟨_, rfl⟩
        · rename_i hne
          obtain ⟨hr, hc, hX, hch, _⟩ := scan_chosen su s hs hR hne
          rw [hch]
          refine try_choices_total (sudoku_solve fuel) s.row s.col
            (fun t => WF t ∧ InRange t ∧
              ∀ k, k ≠ s.row * 9 + s.col → sol su k ≠ 0 → sol t k = sol su k)
            (cands su s.row s.col) ?_ ?_ _ (fun _ hd => hd) su ⟨hwf, hR, fun _ _ _ => rfl⟩
          · intro t d hI hd
            have hdec := fill_decreases su t s.row s.col d hwf.2 hI.1.2 hr hc hX hd hI.2.2
            exact ih _ (cell_fill_wf t _ _ d hI.1)
              (cell_fill_range t _ _ d hI.2.1 (cands_range su _ _ d hd)) (by omega)
          · intro t d s2 hI hd hsol
            have hf := cell_fill_range t s.row s.col d hI.2.1 (cands_range su _ _ d hd)
            have h2 := solve_mono_range fuel _ _ hf hsol
            have hw2 := solve_wf fuel _ _ hsol (cell_fill_wf t _ _ d hI.1)
            refine ⟨cell_erase_wf s2 _ _ hw2, cell_erase_range s2 _ _ h2.1, ?_⟩
            intro k hkx hk
            have e1 := hI.2.2 k hkx hk
            have e2 := cell_fill_other t s.row s.col d k hkx
            rw [cell_erase_other s2 _ _ k hkx, ← e1, ← e2]
            exact h2.2 k (by rw [e2, e1]; exact hk)

theorem try_choices_mono (solve1 solve2 : sudoku → Option (Bool × sudoku))
    (h12 : ∀ t r, solve1 t = some r → solve2 t = some r) (row col : Nat) :
    ∀ ds su r, (try_choices solve1 row col ds su).2 = some r →
      (try_choices solve2 row col ds su).2 = some r := by
  intro ds
  induction ds with
  | nil => intro su r h; exact h
  | cons d ds ih =>
    intro su r h
    cases hs : solve1 (cell_fill su row col d).2 with
    | none =>
      rw [try_choices_cons_none _ _ _ _ _ _ hs] at h
      simp at h
    | some p =>
      obtain ⟨b, s2⟩ := p
      have hs2 := h12 _ _ hs
      cases b with
      | true =>
        rw [try_choices_cons_true _ _ _ _ _ _ _ hs] at h
        rw [try_choices_cons_true _ _ _ _ _ _ _ hs2]
        exact h
      | false =>
        rw [try_choices_cons_false _ _ _ _ _ _ _ hs] at h
        rw [try_choices_cons_false _ _ _ _ _ _ _ hs2]
        exact ih _ _ h

/-- More fuel does not change a result that less fuel already gives. -/
theorem solve_fuel_succ : ∀ fuel su r, sudoku_solve fuel su = some r →
    sudoku_solve (fuel + 1) su = some r := by
  intro fuel
  induction fuel with
  | zero => intro su r h; simp [sudoku_solve_zero] at h
  | succ fuel ih =>
    intro su r h
    rw [sudoku_solve_succ] at h ⊢
    split
    · rename_i hs; rw [if_pos hs] at h; exact h
    · rename_i hs
      rw [if_neg hs] at h
      split
      · rename_i hsc; rw [hsc] at h; exact h
      · rename_i s hsc
        rw [hsc] at h
        simp only at h
        split
        · rename_i he; rw [if_pos he] at h; exact h
        · rename_i he
          rw [if_neg he] at h
          exact try_choices_mono _ _ ih _ _ _ _ _ h

theorem solve_fuel_le (fuel fuel2 : Nat) (hle : fuel ≤ fuel2) (su : sudoku) (r : Bool × sudoku)
    (h : sudoku_solve fuel su = some r) : sudoku_solve fuel2 su = some r := by
  induction hle with
  | refl => exact h
  | step _ ih => exact solve_fuel_succ _ _ _ ih

/-- The state at the start of every iteration of the candidate loop, when the
start grid is arbitrary: well-formed, in range, and equal to the entry state on
every cell that was non-empty at entry. -/
theorem loop_state_step (fuel : Nat) (su t s2 : sudoku) (r c : Nat) (d : Int)
    (hI : WF t ∧ InRange t ∧ ∀ k, k ≠ r * 9 + c → sol su k ≠ 0 → sol t k = sol su k)
    (hd : d ∈ cands su r c)
    (hsol : sudoku_solve fuel (cell_fill t r c d).2 = some (false, s2)) :
    WF (cell_erase s2 r c).2 ∧ InRange (cell_erase s2 r c).2 ∧
      ∀ k, k ≠ r * 9 + c → sol su k ≠ 0 → sol (cell_erase s2 r c).2 k = sol su k := by
  have hf := cell_fill_range t r c d hI.2.1 (cands_range su _ _ d hd)
  have h2 := solve_mono_range fuel _ _ hf hsol
  have hw2 := solve_wf fuel _ _ hsol (cell_fill_wf t _ _ d hI.1)
  refine ⟨cell_erase_wf s2 _ _ hw2, cell_erase_range s2 _ _ h2.1, ?_⟩
  intro k hkx hk
  have e1 := hI.2.2 k hkx hk
  have e2 := cell_fill_other t r c d k hkx
  rw [cell_erase_other s2 _ _ k hkx, ← e1, ← e2]
  exact h2.2 k (by rw [e2, e1]; exact hk)

/-- Every recursive call made directly by `sudoku_solve` on an in-range grid is
on a well-formed in-range grid with fewer empty cells. -/
theorem solve_calls_decrease (fuel : Nat) (su : sudoku) (hwf : WF su) (hR : InRange su) :
    ∀ c ∈ solve_calls fuel su, empty_count c.2 < empty_count su ∧ WF c.2 ∧ InRange c.2 := by
  cases fuel with
  | zero => intro c hc; simp [solve_calls, sudoku_solve_log] at hc
  | succ fuel =>
    rw [solve_calls_succ]
    split
    · intro c hc; simp at hc
    · split
      · intro c hc; simp at hc
      · rename_i s hs
        split
        · intro c hc; simp at hc
        · rename_i hne
          obtain ⟨hr, hc, hX, hch, _⟩ := scan_chosen su s hs hR hne
          rw [hch]
          refine try_choices_log (sudoku_solve fuel) s.row s.col
            (fun t => WF t ∧ InRange t ∧
              ∀ k, k ≠ s.row * 9 + s.col → sol su k ≠ 0 → sol t k = sol su k)
            (fun c => empty_count c.2 < empty_count su ∧ WF c.2 ∧ InRange c.2)
            (cands su s.row s.col) ?_ ?_ _ (fun _ hd => hd) su ⟨hwf, hR, fun _ _ _ => rfl⟩
          · intro t d hI hd
            exact ⟨fill_decreases su t s.row s.col d hwf.2 hI.1.2 hr hc hX hd hI.2.2,
              cell_fill_wf t _ _ d hI.1,
              cell_fill_range t _ _ d hI.2.1 (cands_range su _ _ d hd)⟩
          · intro t d s2 hI hd hsol
            exact loop_state_step fuel su t s2 s.row s.col d hI hd hsol

/-- Under the state invariant every `cell_fill` of the candidate loop succeeds. -/
theorem solve_calls_filled (fuel : Nat) (su : sudoku) (hwf : WF su) (hR : InRange su)
    (hinv : Inv su) : ∀ c ∈ solve_calls fuel su, c.1 = true ∧ Inv c.2 := by
  cases fuel with
  | zero => intro c hc; simp [solve_calls, sudoku_solve_log] at hc
  | succ fuel =>
    rw [solve_calls_succ]
    split
    · intro c hc; simp at hc
    · split
      · intro c hc; simp at hc
      · rename_i s hs
        split
        · intro c hc; simp at hc
        · rename_i hne
          obtain ⟨hr, hc, hX, hch, _⟩ := scan_chosen su s hs hR hne
          rw [hch]
          refine try_choices_log (sudoku_solve fuel) s.row s.col (fun t => t = su)
            (fun c => c.1 = true ∧ Inv c.2) (cands su s.row s.col) ?_ ?_ _
            (fun _ hd => hd) su rfl
          · intro t d hI hd
            subst hI
            exact ⟨(cell_fill_success t s.row s.col d (by rw [hwf.2]; omega) hX
              ((mem_cands t _ _ d).mp hd).2.2).1, cell_fill_inv t _ _ d hinv⟩
          · intro t d s2 hI hd hsol
            subst hI
            have hf := cell_fill_range t s.row s.col d hR (cands_range t _ _ d hd)
            have h2 := solve_false_undo fuel _ _ hf (cell_fill_inv t _ _ d hinv) hsol
            rw [h2]
            exact erase_fill_undo t s.row s.col d hinv hr hc hX

/-- C4. For every state whose working grid has entries in 0..9, every recursive
call made by `sudoku_solve` is on a grid (again with entries in 0..9) with
strictly fewer empty cells than the grid at entry, so `sudoku_solve` returns
with a recursion depth of at most the number of empty cells, which is at most
81.  The `cell_fill` on the chosen cell always succeeds on the states the
operations produce, those whose working grid equals the start grid wherever
the start grid is non-empty; the decrease and the depth bound hold whatever the
start grid is. -/
theorem solve_terminates (su : sudoku) (hwf : WF su) (hR : InRange su) :
    (∀ fuel, ∀ c ∈ solve_calls fuel su,
      empty_count c.2 < empty_count su ∧ WF c.2 ∧ InRange c.2) ∧
    (Inv su → ∀ fuel, ∀ c ∈ solve_calls fuel su, c.1 = true ∧ Inv c.2) ∧
    (∀ fuel, empty_count su < fuel → ∃ r, sudoku_solve fuel su = some r) ∧
    (∃ r, sudoku_solve (empty_count su + 1) su = some r) ∧
    empty_count su ≤ 81 :=
  ⟨fun fuel => solve_calls_decrease fuel su hwf hR,
    fun hinv fuel => solve_calls_filled fuel su hwf hR hinv,
    fun fuel hf => solve_total fuel su hwf hR hf,
    solve_total _ su hwf hR (Nat.lt_succ_self _),
    empty_count_le su hwf.2⟩

theorem solve_terminates_witness :
    (∀ fuel, ∀ c ∈ solve_calls fuel ⟨grid_stuck, grid_stuck⟩,
      empty_count c.2 < empty_count ⟨grid_stuck, grid_stuck⟩ ∧ WF c.2 ∧ InRange c.2) ∧
    (∀ fuel, ∀ c ∈ solve_calls fuel ⟨grid_stuck, grid_stuck⟩, c.1 = true ∧ Inv c.2) ∧
    (∀ fuel, empty_count ⟨grid_stuck, grid_stuck⟩ < fuel →
      ∃ r, sudoku_solve fuel ⟨grid_stuck, grid_stuck⟩ = some r) ∧
    (∃ r, sudoku_solve (empty_count ⟨grid_stuck, grid_stuck⟩ + 1) ⟨grid_stuck, grid_stuck⟩ =
      some r) ∧
    empty_count ⟨grid_stuck, grid_stuck⟩ ≤ 81 :=
  ⟨(solve_terminates ⟨grid_stuck, grid_stuck⟩ (by decide) (by decide)).1,
    (solve_terminates ⟨grid_stuck, grid_stuck⟩ (by decide) (by decide)).2.1 (by decide),
    (solve_terminates ⟨grid_stuck, grid_stuck⟩ (by decide) (by decide)).2.2⟩

/-- Outside the state invariant the fills of the candidate loop need not
succeed.  This state breaks the invariant (the start grid holds 1 at `(0, 0)`,
the working grid is empty there), so no sequence of operations produces it: the
first call fills `(0, 0)` with 1 and the recursion fails, `cell_erase` is refused
by its guard on the start grid, and the second `cell_fill` finds the cell taken. -/
theorem fill_refused_outside_invariant :
    ¬ Inv ⟨grid_stuck_puzzle, grid_stuck⟩ ∧
    solve_calls 4 ⟨grid_stuck_puzzle, grid_stuck⟩ =
      [(true, ⟨grid_stuck_puzzle, grid_stuck_puzzle⟩),
       (false, ⟨grid_stuck_puzzle, grid_stuck_puzzle⟩)] := by
  decide

theorem puzzle_solved_congr (a b : sudoku) (h : a.solution = b.solution) :
    puzzle_solved a = puzzle_solved b := by
  obtain ⟨pa, sa⟩ := a
  obtain ⟨pb, sb⟩ := b
  simp only at h
  subst h
  rfl

theorem mono_full_eq (a b : sudoku) (hl : a.solution.length = b.solution.length)
    (hm : mono a b) (hfull : ∀ k, k < a.solution.length → sol a k ≠ 0) :
    b.solution = a.solution := by
  apply List.ext_getElem hl.symm
  intro i h1 h2
  have := hm i (hfull i h2)
  simp only [sol, List.getD_eq_getElem?_getD, List.getElem?_eq_getElem h1,
    List.getElem?_eq_getElem h2, Option.getD_some] at this
  exact this

/-- C1. Soundness of `sudoku_solve`: on a well-formed state whose working grid has
entries in 0..9 (whatever the start grid holds), when `sudoku_solve` returns true the final
working grid satisfies `puzzle_solved`, so every row, column and 3x3 box is a
permutation of 1..9, every cell that was non-empty at entry holds the same
value, and the start grid is the same.  In particular, if no cell was empty at
entry, the grid at entry was already a valid solution: a fully filled invalid
grid is never reported as solved. -/
theorem solve_sound (fuel : Nat) (su su1 : sudoku) (hwf : WF su) (hR : InRange su)
    (h : sudoku_solve fuel su = some (true, su1)) :
    puzzle_solved su1 = true ∧ grid_valid su1 ∧
    (∀ k, sol su k ≠ EMPTY → sol su1 k = sol su k) ∧
    su1.puzzle = su.puzzle ∧ su1.solution.length = su.solution.length ∧
    ((∀ k, k < 81 → sol su k ≠ EMPTY) → puzzle_solved su = true) := by
  have hs := solve_true_solved fuel su su1 h
  have hm := (solve_mono_range fuel su _ hR h).2
  have hf := solve_frame fuel su _ h
  refine ⟨hs, (puzzle_solved_iff_valid su1).mp hs, hm, hf.1, hf.2.1, ?_⟩
  intro hfull
  have heq : su1.solution = su.solution :=
    mono_full_eq su su1 hf.2.1.symm hm (fun k hk => hfull k (by rw [← hwf.2]; exact hk))
  rw [← puzzle_solved_congr su1 su heq]
  exact hs

theorem solve_sound_witness :
    puzzle_solved ⟨grid_hole, grid_full⟩ = true ∧ grid_valid ⟨grid_hole, grid_full⟩ ∧
    (∀ k, sol ⟨grid_hole, grid_hole⟩ k ≠ EMPTY →
      sol ⟨grid_hole, grid_full⟩ k = sol ⟨grid_hole, grid_hole⟩ k) ∧
    grid_hole = grid_hole ∧ grid_full.length = grid_hole.length ∧
    ((∀ k, k < 81 → sol ⟨grid_hole, grid_hole⟩ k ≠ EMPTY) →
      puzzle_solved ⟨grid_hole, grid_hole⟩ = true) :=
  solve_sound 2 ⟨grid_hole, grid_hole⟩ ⟨grid_hole, grid_full⟩ (by decide) (by decide)
    (by decide)

/-- C3. Undo discipline of `sudoku_solve`: on a state whose working grid has
entries in 0..9 and equals the start grid wherever the start grid is non-empty,
when `sudoku_solve` returns false the working grid after the call equals the
working grid at entry, cell for cell, and the start grid is the same. -/
theorem solve_undo (fuel : Nat) (su su1 : sudoku) (hR : InRange su) (hinv : Inv su)
    (h : sudoku_solve fuel su = some (false, su1)) :
    su1.solution = su.solution ∧ su1.puzzle = su.puzzle ∧
    (∀ k, sol su1 k = sol su k) := by
  have := solve_false_undo fuel su su1 hR hinv h
  subst this
  exact ⟨rfl, rfl, fun _ => rfl⟩

theorem solve_undo_witness :
    grid_stuck = grid_stuck ∧ grid_stuck = grid_stuck ∧
    (∀ k, sol ⟨grid_stuck, grid_stuck⟩ k = sol ⟨grid_stuck, grid_stuck⟩ k) :=
  solve_undo 4 ⟨grid_stuck, grid_stuck⟩ ⟨grid_stuck, grid_stuck⟩ (by decide) (by decide)
    (by decide)

theorem foldl_preserves {α σ : Type} (P : σ → Prop) (f : σ → α → σ)
    (hf : ∀ s x, P s → P (f s x)) : ∀ (l : List α) (s : σ), P s → P (l.foldl f s) := by
  intro l
  induction l with
  | nil => intro s h; exact h
  | cons x l ih => intro s h; exact ih _ (hf s x h)

theorem reset_cell_inv (s : sudoku) (k : Nat) (h : Inv s) :
    Inv { s with solution := s.solution.set k (puz s k) } := by
  intro j hj hp
  rw [sol_set]
  split
  · rename_i hjk
    rw [hjk.1]
    rfl
  · exact h j hj hp

theorem solution_reset_frame (su : sudoku) :
    (solution_reset su).puzzle = su.puzzle ∧
      (solution_reset su).solution.length = su.solution.length ∧
      (Inv su → Inv (solution_reset su)) := by
  unfold solution_reset
  refine foldl_preserves (fun s => s.puzzle = su.puzzle ∧
      s.solution.length = su.solution.length ∧ (Inv su → Inv s)) _ ?_ _ su ⟨rfl, rfl, id⟩
  intro s row hs
  refine foldl_preserves (fun s => s.puzzle = su.puzzle ∧
      s.solution.length = su.solution.length ∧ (Inv su → Inv s)) _ ?_ _ s hs
  intro s col hs
  refine ⟨hs.1, ?_, fun hi => reset_cell_inv s _ (hs.2.2 hi)⟩
  simp only [List.length_set]
  exact hs.2.1

theorem inv_of_copy (init : sudoku) (h : init.solution = init.puzzle) : Inv init := by
  intro k _ _
  unfold sol puz
  rw [h]

theorem reachable_inv (init s : sudoku) (hinit : Inv init) (h : reachable init s) :
    Inv s ∧ s.puzzle = init.puzzle := by
  induction h with
  | start => exact ⟨hinit, rfl⟩
  | fill s row col num _ _ _ _ _ ih =>
    exact ⟨cell_fill_inv s row col num ih.1, (cell_fill_puzzle s row col num).trans ih.2⟩
  | erase s row col _ _ _ ih =>
    exact ⟨cell_erase_inv s row col ih.1, (cell_erase_puzzle s row col).trans ih.2⟩
  | reset s _ ih =>
    have := solution_reset_frame s
    exact ⟨this.2.2 ih.1, this.1.trans ih.2⟩
  | solve s fuel res _ hsol ih =>
    have := solve_frame fuel s res hsol
    exact ⟨this.2.2 ih.1, this.1.trans ih.2⟩

/-- C10. The predicate "wherever the start grid is non-empty the working grid
equals it" is preserved by `cell_fill`, `cell_erase`, `solution_reset` and
`sudoku_solve` (for in-range arguments), none of them changes the start grid, and
so the predicate holds, with the start grid of the initial state, in every state
reachable from an initial state whose working grid is a copy of its start grid. -/
theorem invariant_preserved :
    (∀ su row col digit, row < 9 → col < 9 → 1 ≤ digit → digit ≤ 9 → Inv su →
      Inv (cell_fill su row col digit).2) ∧
    (∀ su row col digit, row < 9 → col < 9 → 1 ≤ digit → digit ≤ 9 →
      (cell_fill su row col digit).2.puzzle = su.puzzle) ∧
    (∀ su row col, row < 9 → col < 9 → Inv su → Inv (cell_erase su row col).2) ∧
    (∀ su row col, row < 9 → col < 9 → (cell_erase su row col).2.puzzle = su.puzzle) ∧
    (∀ su, Inv su → Inv (solution_reset su)) ∧
    (∀ su, (solution_reset su).puzzle = su.puzzle) ∧
    (∀ su fuel res, sudoku_solve fuel su = some res → Inv su → Inv res.2) ∧
    (∀ su fuel res, sudoku_solve fuel su = some res → res.2.puzzle = su.puzzle) ∧
    (∀ init s, init.solution = init.puzzle → reachable init s →
      Inv s ∧ s.puzzle = init.puzzle) :=
  ⟨fun su row col digit _ _ _ _ h => cell_fill_inv su row col digit h,
    fun su row col digit _ _ _ _ => cell_fill_puzzle su row col digit,
    fun su row col _ _ h => cell_erase_inv su row col h,
    fun su row col _ _ => cell_erase_puzzle su row col,
    fun su h => (solution_reset_frame su).2.2 h,
    fun su => (solution_reset_frame su).1,
    fun su fuel res h hi => (solve_frame fuel su res h).2.2 hi,
    fun su fuel res h => (solve_frame fuel su res h).1,
    fun init s hc hr => reachable_inv init s (inv_of_copy init hc) hr⟩

theorem mem_row_cells (r c : Nat) (hc : c < 9) : r * 9 + c ∈ row_cells r := by
  simp only [row_cells, List.mem_map, List.mem_range]
  exact ⟨c, hc, rfl⟩

theorem mem_col_cells (r c : Nat) (hr : r < 9) : r * 9 + c ∈ col_cells c := by
  simp only [col_cells, List.mem_map, List.mem_range]
  exact ⟨r, hr, rfl⟩

theorem mem_block_cells (r c : Nat) : r * 9 + c ∈ block_cells (r / 3) (c / 3) := by
  simp only [block_cells, List.mem_flatMap, List.mem_range, List.mem_map]
  refine ⟨r % 3, Nat.mod_lt _ (by decide), c % 3, Nat.mod_lt _ (by decide), ?_⟩
  have e1 : 3 * (r / 3) + r % 3 = r := by omega
  have e2 : 3 * (c / 3) + c % 3 = c := by omega
  rw [e1, e2]

/-- In a valid grid two different cells of one row, column or box hold different values. -/
theorem valid_peers_ne (su : sudoku) (hv : grid_valid su) (row col r c : Nat)
    (hrow : row < 9) (hcol : col < 9) (hr : r < 9) (hc : c < 9) (hp : peer row col r c) :
    sol su (r * 9 + c) ≠ sol su (row * 9 + col) := by
  intro heq
  have hne : r * 9 + c ≠ row * 9 + col := by
    rcases hp.1 with h | h <;> omega
  have key : ∀ cells : List Nat, (vals su cells).Perm digits → r * 9 + c ∈ cells →
      row * 9 + col ∈ cells → False := by
    intro cells hperm h1 h2
    have hnd : (cells.map (sol su)).Nodup := hperm.nodup_iff.mpr digits_nodup
    exact hne (List.inj_on_of_nodup_map hnd h1 h2 heq)
  rcases hp.2 with h | h | ⟨h1, h2⟩
  · subst h
    exact key _ (hv.1 r hr) (mem_row_cells r c hc) (mem_row_cells r col hcol)
  · subst h
    exact key _ (hv.2.1 c hc) (mem_col_cells r c hr) (mem_col_cells row c hrow)
  · have m1 := mem_block_cells r c
    rw [h1, h2] at m1
    exact key _ (hv.2.2 (row / 3) (by omega) (col / 3) (by omega)) m1
      (mem_block_cells row col)

theorem completes_valid (S : List Int) (su : sudoku) (h : completes S su) :
    grid_valid ⟨su.puzzle, S⟩ :=
  (puzzle_solved_iff_valid _).mp h.2.1

/-- The value a completion gives to an empty cell is one of its candidates. -/
theorem completion_cand (S : List Int) (su : sudoku) (h : completes S su) (r c : Nat)
    (hr : r < 9) (hc : c < 9) : S.getD (r * 9 + c) 0 ∈ cands su r c := by
  have hv := completes_valid S su h
  have hrange := valid_cell_range _ hv r c hr hc
  rw [mem_cands]
  refine ⟨hrange.1, hrange.2, ?_⟩
  rw [pass_iff_peer su r c _ hr hc]
  intro r1 c1 hr1 hc1 hp heq
  have hS : S.getD (r1 * 9 + c1) 0 = sol su (r1 * 9 + c1) := by
    apply h.2.2 _ (by omega)
    rw [heq]
    have : (1 : Int) ≤ S.getD (r * 9 + c) 0 := hrange.1
    simp only [EMPTY]
    omega
  exact valid_peers_ne _ hv r c r1 c1 hr hc hr1 hc1 hp (hS.trans heq)

theorem completes_eq_of_full (S : List Int) (su : sudoku) (hwf : WF su) (h : completes S su)
    (hfull : ∀ r c, r < 9 → c < 9 → sol su (r * 9 + c) ≠ 0) : S = su.solution := by
  apply List.ext_getElem (by rw [h.1, hwf.2])
  intro i h1 h2
  have hi : i < 81 := by rw [← h.1]; exact h1
  have hne : sol su i ≠ 0 := by
    have := hfull (i / 9) (i % 9) (by omega) (by omega)
    rwa [show i / 9 * 9 + i % 9 = i by omega] at this
  have := h.2.2 i hi hne
  simp only [sol, List.getD_eq_getElem?_getD, List.getElem?_eq_getElem h1,
    List.getElem?_eq_getElem h2, Option.getD_some] at this
  exact this

theorem completes_fill (S : List Int) (su : sudoku) (h : completes S su) (r c : Nat)
    (hX : sol (cell_fill su r c (S.getD (r * 9 + c) 0)).2 (r * 9 + c) = S.getD (r * 9 + c) 0) :
    completes S (cell_fill su r c (S.getD (r * 9 + c) 0)).2 := by
  refine ⟨h.1, ?_, ?_⟩
  · rw [cell_fill_puzzle]
    exact h.2.1
  · intro k hk hne
    by_cases hkx : k = r * 9 + c
    · subst hkx
      exact hX.symm
    · rw [cell_fill_other su r c _ k hkx] at hne ⊢
      exact h.2.2 k hk hne

/-- Completeness: when the working grid can be completed, the candidate loop,
and so `sudoku_solve`, returns true. -/
theorem solve_complete : ∀ fuel su S, WF su → InRange su → Inv su → completes S su →
    empty_count su < fuel → ∃ su1, sudoku_solve fuel su = some (true, su1) := by
  intro fuel
  induction fuel with
  | zero => intro su S _ _ _ _ h; omega
  | succ fuel ih =>
    intro su S hwf hR hinv hS hfuel
    rw [sudoku_solve_succ]
    by_cases hs : puzzle_solved su = true
    · rw [if_pos hs]
      exact ⟨su, rfl⟩
    rw [if_neg hs]
    cases hsc : scan su with
    | none =>
      obtain ⟨r, c, hr, hc, _, hcand⟩ := scan_none_dead su hsc
      have := completion_cand S su hS r c hr hc
      rw [hcand] at this
      simp at this
    | some s =>
      simp only
      by_cases he : s.empty = 0
      · exfalso
        have hfull := (scan_empty_zero_iff su s hsc).mp he
        have hEq := completes_eq_of_full S su hwf hS hfull
        apply hs
        have := hS.2.1
        rw [hEq] at this
        exact this
      · rw [if_neg he]
        obtain ⟨hr, hc, hX, hch, _⟩ := scan_chosen su s hsc hR he
        rw [hch]
        have inner : ∀ es : List Int, (∀ d ∈ es, d ∈ cands su s.row s.col) →
            S.getD (s.row * 9 + s.col) 0 ∈ es →
            ∃ su1, (try_choices (sudoku_solve fuel) s.row s.col es su).2 =
              some (true, su1) := by
          intro es
          induction es with
          | nil => intro _ hmem; simp at hmem
          | cons d es ihes =>
            intro hsub hmem
            have hd := hsub d (List.mem_cons_self _ _)
            have hfs := cell_fill_success su s.row s.col d (by rw [hwf.2]; omega) hX
              ((mem_cands su _ _ d).mp hd).2.2
            have hdec := fill_decreases su su s.row s.col d hwf.2 hwf.2 hr hc hX hd
              (fun _ _ _ => rfl)
            have hfR := cell_fill_range su s.row s.col d hR (cands_range su _ _ d hd)
            have hfW := cell_fill_wf su s.row s.col d hwf
            have hfI := cell_fill_inv su s.row s.col d hinv
            obtain ⟨⟨b, s2⟩, hsol⟩ := solve_total fuel _ hfW hfR (by omega)
            cases b with
            | true =>
              rw [try_choices_cons_true _ _ _ _ _ _ _ hsol]
              exact ⟨s2, rfl⟩
            | false =>
              rw [try_choices_cons_false _ _ _ _ _ _ _ hsol]
              have h2 := solve_false_undo fuel _ _ hfR hfI hsol
              rw [h2, erase_fill_undo su s.row s.col d hinv hr hc hX]
              by_cases hdS : d = S.getD (s.row * 9 + s.col) 0
              · exfalso
                subst hdS
                obtain ⟨su1, h1⟩ := ih _ S hfW hfR hfI
                  (completes_fill S su hS s.row s.col hfs.2) (by omega)
                rw [hsol] at h1
                simp at h1
              · apply ihes (fun e he => hsub e (List.mem_cons_of_mem _ he))
                rcases List.mem_cons.mp hmem with hm | hm
                · exact absurd hm.symm hdS
                · exact hm
        exact inner _ (fun _ hd => hd) (completion_cand S su hS s.row s.col hr hc)

/-- C2. Completeness of `sudoku_solve`: on a well-formed state with entries in
0..9 whose working grid equals the start grid wherever the start grid is
non-empty, if some fully filled grid `S` satisfies `puzzle_solved` and agrees
with the working grid on every non-empty cell, then `sudoku_solve` returns true
(for every fuel above the number of empty cells), the resulting working grid
satisfies `puzzle_solved`, and it equals `S` when `S` is the only such grid. -/
theorem solve_completeness (su : sudoku) (S : List Int) (fuel : Nat) (hwf : WF su)
    (hR : InRange su) (hinv : Inv su) (hS : completes S su) (hfuel : empty_count su < fuel) :
    ∃ su1, sudoku_solve fuel su = some (true, su1) ∧ puzzle_solved su1 = true ∧
      grid_valid su1 ∧ completes su1.solution su ∧
      ((∀ S1, completes S1 su → S1 = S) → su1.solution = S) := by
  obtain ⟨su1, h⟩ := solve_complete fuel su S hwf hR hinv hS hfuel
  have hs := solve_true_solved fuel su su1 h
  have hm := (solve_mono_range fuel su _ hR h).2
  have hf := solve_frame fuel su _ h
  have hc : completes su1.solution su := by
    refine ⟨by rw [hf.2.1, hwf.2], ?_, fun k _ hk => hm k hk⟩
    rw [← hf.1]
    exact hs
  exact ⟨su1, h, hs, (puzzle_solved_iff_valid su1).mp hs, hc, fun hu => hu _ hc⟩

theorem solve_completeness_witness :
    ∃ su1, sudoku_solve 2 ⟨grid_hole, grid_hole⟩ = some (true, su1) ∧
      puzzle_solved su1 = true ∧ grid_valid su1 ∧
      completes su1.solution ⟨grid_hole, grid_hole⟩ ∧
      ((∀ S1, completes S1 ⟨grid_hole, grid_hole⟩ → S1 = grid_full) →
        su1.solution = grid_full) :=
  solve_completeness ⟨grid_hole, grid_hole⟩ grid_full 2 (by decide) (by decide) (by decide)
    (by decide) (by decide)

theorem invariant_preserved_witness :
    Inv (cell_erase (cell_fill ⟨grid_hole, grid_hole⟩ 4 4 5).2 4 4).2 ∧
      (cell_erase (cell_fill ⟨grid_hole, grid_hole⟩ 4 4 5).2 4 4).2.puzzle = grid_hole :=
  invariant_preserved.2.2.2.2.2.2.2.2 ⟨grid_hole, grid_hole⟩ _ rfl
    (reachable.erase _ 4 4
      (reachable.fill _ 4 4 5 reachable.start (by decide) (by decide) (by decide) (by decide))
      (by decide) (by decide))

/-- C12 (amended). For row, col in 0..8 and digit in 1..9: when the working-grid
entry at the cell is non-empty, `cell_fill` returns false and changes nothing;
so it refuses a cell that is non-empty in the start grid whenever the working
grid holds the start grid's value there.  `cell_fill` itself never reads the
start grid. -/
theorem cell_fill_refuses (su : sudoku) (row col : Nat) (digit : Int)
    (_hr : row < 9) (_hc : col < 9) (_hd1 : 1 ≤ digit) (_hd9 : digit ≤ 9)
    (hcell : puz su (row * DIM + col) ≠ EMPTY →
      sol su (row * DIM + col) = puz su (row * DIM + col)) :
    (sol su (row * DIM + col) ≠ EMPTY → cell_fill su row col digit = (false, su)) ∧
    (puz su (row * DIM + col) ≠ EMPTY → cell_fill su row col digit = (false, su)) ∧
    (∀ p1 p2 s, (cell_fill ⟨p1, s⟩ row col digit).1 = (cell_fill ⟨p2, s⟩ row col digit).1 ∧
      (cell_fill ⟨p1, s⟩ row col digit).2.solution =
        (cell_fill ⟨p2, s⟩ row col digit).2.solution) := by
  have h1 : sol su (row * DIM + col) ≠ EMPTY → cell_fill su row col digit = (false, su) := by
    intro h
    unfold cell_fill
    rw [if_pos h]
  refine ⟨h1, fun hp => h1 (by rw [hcell hp]; exact hp), ?_⟩
  intro p1 p2 s
  have hpass : pass ⟨p1, s⟩ row col digit = pass ⟨p2, s⟩ row col digit :=
    pass_congr ⟨p1, s⟩ ⟨p2, s⟩ rfl row col digit
  have hsol : sol ⟨p1, s⟩ (row * DIM + col) = sol ⟨p2, s⟩ (row * DIM + col) := rfl
  unfold cell_fill
  rw [hpass, hsol]
  split
  · exact ⟨rfl, rfl⟩
  · split
    · exact ⟨rfl, rfl⟩
    · exact ⟨rfl, rfl⟩

theorem cell_fill_refuses_witness :
    (sol ⟨grid_full, grid_full⟩ (4 * DIM + 4) ≠ EMPTY →
      cell_fill ⟨grid_full, grid_full⟩ 4 4 5 = (false, ⟨grid_full, grid_full⟩)) ∧
    (puz ⟨grid_full, grid_full⟩ (4 * DIM + 4) ≠ EMPTY →
      cell_fill ⟨grid_full, grid_full⟩ 4 4 5 = (false, ⟨grid_full, grid_full⟩)) ∧
    (∀ p1 p2 s, (cell_fill ⟨p1, s⟩ 4 4 5).1 = (cell_fill ⟨p2, s⟩ 4 4 5).1 ∧
      (cell_fill ⟨p1, s⟩ 4 4 5).2.solution = (cell_fill ⟨p2, s⟩ 4 4 5).2.solution) :=
  cell_fill_refuses ⟨grid_full, grid_full⟩ 4 4 5 (by decide) (by decide) (by decide)
    (by decide) (by decide)

/-- C12 as stated fails: the start grid holds 5 at `(4, 4)`, the working grid is
empty there, and `cell_fill` writes the 5 and returns true. -/
theorem cell_fill_writes_puzzle_cell :
    puz ⟨grid_full, grid_hole⟩ (4 * DIM + 4) ≠ EMPTY ∧
    cell_fill ⟨grid_full, grid_hole⟩ 4 4 5 = (true, ⟨grid_full, grid_full⟩) ∧
    (cell_fill ⟨grid_full, grid_hole⟩ 4 4 5).2.solution ≠ grid_hole := by
  decide

/-- C13. On a state whose working grid equals the start grid wherever the start
grid is non-empty, for a cell in range that is empty in the working grid and a
digit in 1..9, `cell_fill` followed by `cell_erase` of the same cell gives a state
with the same start grid and the same working grid as before the fill, whether
the fill succeeded or not. -/
theorem fill_erase_round_trip (su : sudoku) (row col : Nat) (digit : Int) (hinv : Inv su)
    (hr : row < 9) (hc : col < 9) (_hd1 : 1 ≤ digit) (_hd9 : digit ≤ 9)
    (he : sol su (row * DIM + col) = EMPTY) :
    (cell_erase (cell_fill su row col digit).2 row col).2 = su ∧
    (cell_erase (cell_fill su row col digit).2 row col).2.puzzle = su.puzzle ∧
    (cell_erase (cell_fill su row col digit).2 row col).2.solution = su.solution := by
  have h := erase_fill_undo su row col digit hinv hr hc he
  rw [h]
  exact ⟨rfl, rfl, rfl⟩

theorem fill_erase_round_trip_witness :
    (cell_erase (cell_fill ⟨grid_hole, grid_hole⟩ 4 4 5).2 4 4).2 = ⟨grid_hole, grid_hole⟩ ∧
    (cell_erase (cell_fill ⟨grid_hole, grid_hole⟩ 4 4 5).2 4 4).2.puzzle = grid_hole ∧
    (cell_erase (cell_fill ⟨grid_hole, grid_hole⟩ 4 4 5).2 4 4).2.solution = grid_hole :=
  fill_erase_round_trip ⟨grid_hole, grid_hole⟩ 4 4 5 (by decide) (by decide) (by decide)
    (by decide) (by decide) (by decide)

/-- C15. On a state whose working grid satisfies `puzzle_solved`, `sudoku_solve`
returns true at once, without a recursive call, and leaves both grids as they
are; so after any call that returned true, a second call returns true with the
same state. -/
theorem solve_idempotent (su : sudoku) (fuel : Nat) (hs : puzzle_solved su = true) :
    sudoku_solve (fuel + 1) su = some (true, su) ∧ solve_calls (fuel + 1) su = [] ∧
    (∀ fuel0 su0 su1, sudoku_solve fuel0 su0 = some (true, su1) →
      sudoku_solve (fuel + 1) su1 = some (true, su1)) := by
  have h1 : ∀ t, puzzle_solved t = true → sudoku_solve (fuel + 1) t = some (true, t) ∧
      solve_calls (fuel + 1) t = [] := by
    intro t ht
    rw [sudoku_solve_succ, solve_calls_succ, if_pos ht, if_pos ht]
    exact ⟨rfl, rfl⟩
  exact ⟨(h1 su hs).1, (h1 su hs).2,
    fun fuel0 su0 su1 h => (h1 su1 (solve_true_solved fuel0 su0 su1 h)).1⟩

theorem solve_idempotent_witness :
    sudoku_solve (0 + 1) ⟨grid_hole, grid_full⟩ = some (true, ⟨grid_hole, grid_full⟩) ∧
    solve_calls (0 + 1) ⟨grid_hole, grid_full⟩ = [] ∧
    (∀ fuel0 su0 su1, sudoku_solve fuel0 su0 = some (true, su1) →
      sudoku_solve (0 + 1) su1 = some (true, su1)) :=
  solve_idempotent ⟨grid_hole, grid_full⟩ 0 (by decide)

theorem row_duplicate_not_valid (su : sudoku) (hd : row_duplicate su) : ¬ grid_valid su := by
  intro hv
  obtain ⟨r, c1, c2, hr, hc1, hc2, hne, _, _, heq⟩ := hd
  exact valid_peers_ne su hv r c2 r c1 hr hc2 hr hc1 ⟨Or.inr hne, Or.inl rfl⟩ heq

theorem row_duplicate_mono (su su1 : sudoku) (hm : mono su su1) (hd : row_duplicate su) :
    row_duplicate su1 := by
  obtain ⟨r, c1, c2, hr, hc1, hc2, hne, h1, h9, heq⟩ := hd
  have e1 : sol su1 (r * 9 + c1) = sol su (r * 9 + c1) := hm _ (by omega)
  have e2 : sol su1 (r * 9 + c2) = sol su (r * 9 + c2) := hm _ (by rw [← heq]; omega)
  exact ⟨r, c1, c2, hr, hc1, hc2, hne, by rw [e1]; exact h1, by rw [e1]; exact h9,
    by rw [e1, e2]; exact heq⟩

/-- C16. On a well-formed state with entries in 0..9 whose working grid equals
the start grid wherever the start grid is non-empty, if some row of the working
grid holds the same digit of 1..9 in two different cells, then, whether or not
empty cells remain, `sudoku_solve` returns false (for every fuel above the
number of empty cells), and it leaves the state as it found it. -/
theorem solve_row_duplicate (su : sudoku) (fuel : Nat) (hwf : WF su) (hR : InRange su)
    (hinv : Inv su) (hd : row_duplicate su) (hfuel : empty_count su < fuel) :
    sudoku_solve fuel su = some (false, su) := by
  obtain ⟨⟨b, su1⟩, h⟩ := solve_total fuel su hwf hR hfuel
  cases b with
  | false =>
    rw [h, solve_false_undo fuel su su1 hR hinv h]
  | true =>
    exfalso
    have hs := solve_true_solved fuel su su1 h
    have hm := (solve_mono_range fuel su _ hR h).2
    exact row_duplicate_not_valid su1 (row_duplicate_mono su su1 hm hd)
      ((puzzle_solved_iff_valid su1).mp hs)

theorem solve_row_duplicate_witness :
    sudoku_solve 2 ⟨grid_dup_hole, grid_dup_hole⟩ = some (false, ⟨grid_dup_hole, grid_dup_hole⟩) :=
  solve_row_duplicate ⟨grid_dup_hole, grid_dup_hole⟩ 2 (by decide) (by decide) (by decide)
    ⟨0, 0, 1, by decide, by decide, by decide, by decide, by decide, by decide, by decide⟩
    (by decide)

/-- C17. When the working grid (with arbitrary entries) has an empty cell for
which `cell_choices` returns 0, `sudoku_solve` returns false and leaves the state
as it found it; it does so without any recursive call (fuel 1 suffices and the
log of the candidate loop, where `cell_fill` and `cell_erase` are called, is
empty). -/
theorem solve_dead_cell (su : sudoku) (r c : Nat) (ch : List Int) (fuel : Nat)
    (hr : r < 9) (hc : c < 9) (hch : ch.length = 9) (he : sol su (r * DIM + c) = EMPTY)
    (h0 : (cell_choices su r c ch).1 = 0) :
    sudoku_solve (fuel + 1) su = some (false, su) ∧ solve_calls (fuel + 1) su = [] ∧
    sudoku_solve 1 su = some (false, su) := by
  have hcand : (cands su r c).length = 0 := by
    rw [cell_choices_empty su r c ch he (by omega)] at h0
    exact h0
  have hns : ¬ puzzle_solved su = true := by
    intro hs
    have := valid_cell_range su ((puzzle_solved_iff_valid su).mp hs) r c hr hc
    have he' : sol su (r * 9 + c) = 0 := he
    omega
  have hscan : scan su = none := by
    cases hsc : scan su with
    | none => rfl
    | some s =>
      have := (scan_some_alive su s hsc r c hr hc he).2
      omega
  have key : ∀ f, sudoku_solve (f + 1) su = some (false, su) ∧ solve_calls (f + 1) su = [] := by
    intro f
    rw [sudoku_solve_succ, solve_calls_succ, if_neg hns, if_neg hns, hscan]
    exact ⟨rfl, rfl⟩
  exact ⟨(key fuel).1, (key fuel).2, (key 0).1⟩

theorem solve_dead_cell_witness :
    sudoku_solve (0 + 1) ⟨grid_dead, grid_dead⟩ = some (false, ⟨grid_dead, grid_dead⟩) ∧
    solve_calls (0 + 1) ⟨grid_dead, grid_dead⟩ = [] ∧
    sudoku_solve 1 ⟨grid_dead, grid_dead⟩ = some (false, ⟨grid_dead, grid_dead⟩) :=
  solve_dead_cell ⟨grid_dead, grid_dead⟩ 0 2 scan_init.choices_temp 0 (by decide) (by decide)
    (by decide) (by decide) (by decide)

theorem foldl_inv_mem {α σ : Type} (f : σ → α → σ) (P : List α → σ → Prop)
    (hstep : ∀ pre x s, P pre s → P (pre ++ [x]) (f s x)) (xs : List α) :
    ∀ pre s, P pre s → P (pre ++ xs) (xs.foldl f s) := by
  induction xs with
  | nil => intro pre s h; simpa using h
  | cons x xs ih =>
    intro pre s h
    have := ih (pre ++ [x]) (f s x) (hstep pre x s h)
    simpa using this

theorem foldl_nested {α β σ : Type} (g : σ → α → β → σ) (xs : List α) (ys : List β) (s : σ) :
    xs.foldl (fun s i => ys.foldl (fun s j => g s i j) s) s =
      (xs.flatMap (fun i => ys.map (fun j => (i, j)))).foldl (fun s p => g s p.1 p.2) s := by
  induction xs generalizing s with
  | nil => rfl
  | cons x xs ih =>
    rw [List.foldl_cons, List.flatMap_cons, List.foldl_append, List.foldl_map, ih]

theorem solution_reset_eq_flat (su : sudoku) :
    solution_reset su = all_cells.foldl (fun s p =>
      { s with solution := s.solution.set (p.1 * DIM + p.2) (puz s (p.1 * DIM + p.2)) }) su := by
  have h := foldl_nested (fun (s : sudoku) (i j : Nat) =>
    ({ s with solution := s.solution.set (i * DIM + j) (puz s (i * DIM + j)) } : sudoku))
    (List.range 9) (List.range 9) su
  unfold solution_reset all_cells
  exact h

/-- After `solution_reset` every cell of the working grid holds the start grid's value. -/
theorem solution_reset_cells (su : sudoku) (hlen : su.solution.length = 81) :
    (solution_reset su).puzzle = su.puzzle ∧ (solution_reset su).solution.length = 81 ∧
      ∀ r c, r < 9 → c < 9 → sol (solution_reset su) (r * 9 + c) = puz su (r * 9 + c) := by
  rw [solution_reset_eq_flat]
  have := foldl_inv_mem (fun (s : sudoku) (p : Nat × Nat) =>
      ({ s with solution := s.solution.set (p.1 * DIM + p.2) (puz s (p.1 * DIM + p.2)) } :
        sudoku))
    (fun pre s => s.puzzle = su.puzzle ∧ s.solution.length = 81 ∧
      ∀ p ∈ pre, p.1 < 9 → p.2 < 9 → sol s (p.1 * 9 + p.2) = puz su (p.1 * 9 + p.2))
    ?_ all_cells [] su ⟨rfl, hlen, fun p hp => by simp at hp⟩
  · simp only [List.nil_append] at this
    refine ⟨this.1, this.2.1, fun r c hr hc => ?_⟩
    exact this.2.2 (r, c) ((mem_all_cells (r, c)).mpr ⟨hr, hc⟩) hr hc
  · intro pre x s hP
    refine ⟨hP.1, by simp only [List.length_set]; exact hP.2.1, ?_⟩
    intro p hp hp1 hp2
    rw [sol_set]
    have hpz : puz s (x.1 * DIM + x.2) = puz su (x.1 * DIM + x.2) := by
      unfold puz; rw [hP.1]
    split
    · rename_i hpx
      rw [hpz, hpx.1]
    · rename_i hpx
      rcases List.mem_append.mp hp with hm | hm
      · exact hP.2.2 p hm hp1 hp2
      · simp only [List.mem_singleton] at hm
        subst hm
        exfalso
        apply hpx
        refine ⟨rfl, ?_⟩
        rw [hP.2.1]
        simp only [DIM]
        omega

theorem list_eq_of_cells (a b : List Int) (ha : a.length = 81) (hb : b.length = 81)
    (h : ∀ r c, r < 9 → c < 9 → a.getD (r * 9 + c) 0 = b.getD (r * 9 + c) 0) : a = b := by
  apply List.ext_getElem (by rw [ha, hb])
  intro i h1 h2
  have hi : i < 81 := by rw [← ha]; exact h1
  have := h (i / 9) (i % 9) (by omega) (by omega)
  rw [show i / 9 * 9 + i % 9 = i by omega] at this
  simp only [List.getD_eq_getElem?_getD, List.getElem?_eq_getElem h1,
    List.getElem?_eq_getElem h2, Option.getD_some] at this
  exact this

/-- On a well-formed state `solution_reset` makes the working grid the start grid. -/
theorem solution_reset_eq (su : sudoku) (hwf : WF su) :
    solution_reset su = ⟨su.puzzle, su.puzzle⟩ := by
  have h := solution_reset_cells su hwf.2
  have hs : (solution_reset su).solution = su.puzzle :=
    list_eq_of_cells _ _ h.2.1 hwf.1 h.2.2
  cases hres : solution_reset su with
  | mk p s =>
    rw [hres] at h hs
    simp only at h hs
    rw [h.1, hs]

theorem apply_op_frame (su : sudoku) (op : grid_op) :
    (apply_op su op).puzzle = su.puzzle ∧
      (apply_op su op).solution.length = su.solution.length := by
  cases op with
  | fill row col num => exact ⟨cell_fill_puzzle su row col num, cell_fill_length su row col num⟩
  | erase row col => exact ⟨cell_erase_puzzle su row col, cell_erase_length su row col⟩

theorem apply_ops_frame (ops : List grid_op) : ∀ su : sudoku,
    (apply_ops su ops).puzzle = su.puzzle ∧
      (apply_ops su ops).solution.length = su.solution.length := by
  induction ops with
  | nil => intro su; exact ⟨rfl, rfl⟩
  | cons op ops ih =>
    intro su
    have h1 := apply_op_frame su op
    have h2 := ih (apply_op su op)
    exact ⟨h2.1.trans h1.1, h2.2.trans h1.2⟩

/-- C14. From any well-formed initial state, after any finite sequence of
`cell_fill` and `cell_erase` calls with in-range arguments, `solution_reset` gives
a working grid equal in all 81 cells to the start grid, which is the start grid
of the initial state; and `solution_reset` is idempotent. -/
theorem reset_restores (init : sudoku) (ops : List grid_op) (hwf : WF init)
    (_hops : ∀ op ∈ ops, op.in_range) :
    (solution_reset (apply_ops init ops)).solution = init.puzzle ∧
    (solution_reset (apply_ops init ops)).puzzle = init.puzzle ∧
    (∀ r c, r < 9 → c < 9 →
      sol (solution_reset (apply_ops init ops)) (r * DIM + c) = puz init (r * DIM + c)) ∧
    solution_reset (solution_reset (apply_ops init ops)) =
      solution_reset (apply_ops init ops) ∧
    solution_reset (solution_reset init) = solution_reset init := by
  have hf := apply_ops_frame ops init
  have hwf1 : WF (apply_ops init ops) := by
    unfold WF at hwf ⊢
    rw [hf.1, hf.2]
    exact hwf
  have h1 := solution_reset_eq (apply_ops init ops) hwf1
  have h0 := solution_reset_eq init hwf
  have hidem : ∀ p : List Int, p.length = 81 →
      solution_reset (⟨p, p⟩ : sudoku) = ⟨p, p⟩ := fun p hp =>
    solution_reset_eq ⟨p, p⟩ ⟨hp, hp⟩
  rw [h1, h0, hf.1]
  refine ⟨rfl, rfl, fun r c _ _ => rfl, hidem _ hwf.1, hidem _ hwf.1⟩

theorem reset_restores_witness :
    (solution_reset (apply_ops ⟨grid_hole, grid_hole⟩
      [grid_op.fill 4 4 5, grid_op.erase 0 0, grid_op.fill 4 4 7])).solution = grid_hole ∧
    (solution_reset (apply_ops ⟨grid_hole, grid_hole⟩
      [grid_op.fill 4 4 5, grid_op.erase 0 0, grid_op.fill 4 4 7])).puzzle = grid_hole ∧
    (∀ r c, r < 9 → c < 9 →
      sol (solution_reset (apply_ops ⟨grid_hole, grid_hole⟩
        [grid_op.fill 4 4 5, grid_op.erase 0 0, grid_op.fill 4 4 7])) (r * DIM + c) =
        puz ⟨grid_hole, grid_hole⟩ (r * DIM + c)) ∧
    solution_reset (solution_reset (apply_ops ⟨grid_hole, grid_hole⟩
      [grid_op.fill 4 4 5, grid_op.erase 0 0, grid_op.fill 4 4 7])) =
      solution_reset (apply_ops ⟨grid_hole, grid_hole⟩
        [grid_op.fill 4 4 5, grid_op.erase 0 0, grid_op.fill 4 4 7]) ∧
    solution_reset (solution_reset ⟨grid_hole, grid_hole⟩) =
      solution_reset ⟨grid_hole, grid_hole⟩ :=
  reset_restores ⟨grid_hole, grid_hole⟩
    [grid_op.fill 4 4 5, grid_op.erase 0 0, grid_op.fill 4 4 7] (by decide)
    (by
      intro op hop
      simp only [List.mem_cons, List.mem_singleton, List.not_mem_nil, or_false] at hop
      rcases hop with rfl | rfl | rfl <;> simp [grid_op.in_range])

theorem box_pass_uniform_iff (su : sudoku) (row col : Nat) (num : Int) :
    box_pass_uniform su row col num = true ↔
      ∀ r c, r / 3 = row / 3 → c / 3 = col / 3 → (r ≠ row ∨ c ≠ col) →
        sol su (r * 9 + c) ≠ num := by
  unfold box_pass_uniform
  simp only [List.all_eq_true, List.mem_range, Bool.or_eq_true, Bool.and_eq_true, beq_iff_eq,
    Bool.not_eq_true', beq_eq_false_iff_ne, ne_eq]
  constructor
  · intro h r c h1 h2 h3
    have := h (r % 3) (Nat.mod_lt _ (by decide)) (c % 3) (Nat.mod_lt _ (by decide))
    have e1 : row - row % 3 + r % 3 = r := by omega
    have e2 : col - col % 3 + c % 3 = c := by omega
    rw [e1, e2] at this
    rcases this with ⟨rfl, rfl⟩ | h4
    · rcases h3 with h3 | h3 <;> exact absurd rfl h3
    · exact h4
  · intro h dr hdr dc hdc
    by_cases hsame : row - row % 3 + dr = row ∧ col - col % 3 + dc = col
    · exact Or.inl hsame
    · right
      apply h _ _ (by omega) (by omega)
      by_contra hcon
      push_neg at hcon
      exact hsame hcon

theorem box_cells_mem (row col : Nat) (hr : row < 9) (hc : col < 9) (k : Nat)
    (hk : k ∈ box_cells row col) : k ≤ 80 ∧ k ∈ box_block row col ∧ k ≠ row * DIM + col := by
  have hp : (box_cells row col).Perm (box_others row col) :=
    List.isPerm_iff.mp (box_cells_perm row hr col hc)
  have hm := hp.subset hk
  unfold box_others at hm
  rw [List.mem_filter] at hm
  have hb := hm.1
  rw [mem_box_block] at hb
  obtain ⟨dr, hdr, dc, hdc, rfl⟩ := hb
  refine ⟨by omega, hm.1, ?_⟩
  simpa using hm.2

/-- C19. For row, col in 0..8 and digit in 1..9 the nine-way case split of
`box_pass` returns the same boolean as the uniform single scan of the block
anchored at `(row - row % 3, col - col % 3)` that skips `(row, col)`; the indices
`box_pass` reads are those of `box_cells`, and each of them lies in 0..80, inside
that block, and is not the cell itself. -/
theorem box_pass_refines (su : sudoku) (row col : Nat) (digit : Int)
    (hr : row < 9) (hc : col < 9) (_hd1 : 1 ≤ digit) (_hd9 : digit ≤ 9) :
    box_pass su row col digit = box_pass_uniform su row col digit ∧
    box_pass su row col digit =
      (box_cells row col).all (fun k => !decide (sol su k = digit)) ∧
    (∀ k, k ∈ box_cells row col →
      k ≤ 80 ∧ k ∈ box_block row col ∧ k ≠ row * DIM + col) := by
  refine ⟨?_, box_pass_eq_all su row col digit, box_cells_mem row col hr hc⟩
  rw [Bool.eq_iff_iff, box_pass_iff su row col digit hr hc, box_pass_uniform_iff]

theorem box_pass_refines_witness :
    box_pass ⟨grid_hole, grid_hole⟩ 4 5 3 = box_pass_uniform ⟨grid_hole, grid_hole⟩ 4 5 3 ∧
    box_pass ⟨grid_hole, grid_hole⟩ 4 5 3 =
      (box_cells 4 5).all (fun k => !decide (sol ⟨grid_hole, grid_hole⟩ k = 3)) ∧
    (∀ k, k ∈ box_cells 4 5 → k ≤ 80 ∧ k ∈ box_block 4 5 ∧ k ≠ 4 * DIM + 5) :=
  box_pass_refines ⟨grid_hole, grid_hole⟩ 4 5 3 (by decide) (by decide) (by decide) (by decide)

theorem scan_grid_ten :
    scan ⟨grid_ten, grid_ten⟩ =
      some { empty := 80, choices := [1, 2, 3, 4, 5, 6, 7, 8, 9],
             choices_temp := [1, 2, 3, 4, 5, 6, 7, 8, 9], choices_num := 9, row := 0, col := 0 } := by
  decide!

theorem grid_ten_diverges : ∀ fuel, sudoku_solve fuel ⟨grid_ten, grid_ten⟩ = none ∧
    solve_calls (fuel + 1) ⟨grid_ten, grid_ten⟩ = [(false, ⟨grid_ten, grid_ten⟩)] := by
  have hns : ¬ puzzle_solved ⟨grid_ten, grid_ten⟩ = true := by decide
  have hfill : cell_fill ⟨grid_ten, grid_ten⟩ 0 0 1 = (false, ⟨grid_ten, grid_ten⟩) := by decide
  have hlog : ∀ fuel, sudoku_solve fuel ⟨grid_ten, grid_ten⟩ = none →
      solve_calls (fuel + 1) ⟨grid_ten, grid_ten⟩ = [(false, ⟨grid_ten, grid_ten⟩)] ∧
      sudoku_solve (fuel + 1) ⟨grid_ten, grid_ten⟩ = none := by
    intro fuel ih
    have hs : sudoku_solve fuel (cell_fill ⟨grid_ten, grid_ten⟩ 0 0 1).2 = none := by
      rw [hfill]; exact ih
    rw [solve_calls_succ, sudoku_solve_succ, if_neg hns, if_neg hns, scan_grid_ten]
    simp only [Nat.reduceEqDiff, if_false, List.take, OfNat.ofNat_ne_zero]
    rw [try_choices_cons_none _ _ _ _ _ _ hs, hfill]
    exact ⟨rfl, rfl⟩
  intro fuel
  induction fuel with
  | zero => exact ⟨rfl, (hlog 0 rfl).1⟩
  | succ fuel ih =>
    have h1 := (hlog fuel ih.1).2
    exact ⟨h1, (hlog (fuel + 1) h1).1⟩

/-- C20. The grid with 10 in cell `(0, 0)` (what `sudoku_read` stores for the
character after the digit nine) and the other 80 cells empty: no empty cell has
fewer than 9 candidates, so the scan keeps its default cell `(0, 0)` with the
digits 1..9; `cell_fill` on that cell returns false and changes nothing; the
recursive call gets the grid it was entered with, with as many empty cells; and
no amount of fuel lets `sudoku_solve` return. -/
theorem solve_diverges_out_of_domain :
    sudoku_read_cell (Char.ofNat 58) = 10 ∧
    sol ⟨grid_ten, grid_ten⟩ 0 = 10 ∧
    (∀ k, k < 81 → 0 < k → sol ⟨grid_ten, grid_ten⟩ k = EMPTY) ∧
    (∀ r c, r < 9 → c < 9 → sol ⟨grid_ten, grid_ten⟩ (r * DIM + c) = EMPTY →
      9 ≤ (cell_choices ⟨grid_ten, grid_ten⟩ r c scan_init.choices_temp).1) ∧
    (∃ s, scan ⟨grid_ten, grid_ten⟩ = some s ∧ s.row = 0 ∧ s.col = 0 ∧ s.choices_num = 9 ∧
      s.choices.take s.choices_num = digits ∧ s.empty = 80) ∧
    (∀ d, cell_fill ⟨grid_ten, grid_ten⟩ 0 0 d = (false, ⟨grid_ten, grid_ten⟩)) ∧
    (∀ fuel, solve_calls (fuel + 1) ⟨grid_ten, grid_ten⟩ = [(false, ⟨grid_ten, grid_ten⟩)]) ∧
    (∀ fuel, sudoku_solve fuel ⟨grid_ten, grid_ten⟩ = none) := by
  refine ⟨by decide, by decide, by decide, ?_, ⟨_, scan_grid_ten, rfl, rfl, rfl, rfl, rfl⟩, ?_,
    fun fuel => (grid_ten_diverges fuel).2, fun fuel => (grid_ten_diverges fuel).1⟩
  · intro r c hr hc he
    rw [cell_choices_empty _ r c _ he (by decide)]
    exact (scan_some_alive _ _ scan_grid_ten r c hr hc he).1
  · intro d
    unfold cell_fill
    rw [if_pos (by decide)]

theorem choice_count_empty (su : sudoku) (r c : Nat) (he : sol su (r * DIM + c) = EMPTY) :
    choice_count su r c = (cands su r c).length := by
  unfold choice_count
  rw [cell_choices_empty su r c _ he (by decide)]

theorem choice_count_full (su : sudoku) (r c : Nat) (he : sol su (r * DIM + c) ≠ EMPTY) :
    choice_count su r c = 0 := by
  unfold choice_count
  rw [cell_choices_full su r c _ he]

theorem loop_ret_append {α σ ρ : Type} (body : α → σ → Except ρ σ) (xs ys : List α) (s : σ) :
    loop_ret body (xs ++ ys) s =
      match loop_ret body xs s with
      | .error r => .error r
      | .ok s1 => loop_ret body ys s1 := by
  induction xs generalizing s with
  | nil => rfl
  | cons x xs ih =>
    simp only [List.cons_append, loop_ret]
    cases body x s with
    | error r => rfl
    | ok s1 => exact ih s1

theorem loop_ret_map {α β σ ρ : Type} (body : β → σ → Except ρ σ) (f : α → β) (xs : List α)
    (s : σ) : loop_ret body (xs.map f) s = loop_ret (fun x => body (f x)) xs s := by
  induction xs generalizing s with
  | nil => rfl
  | cons x xs ih =>
    simp only [List.map_cons, loop_ret]
    cases body (f x) s with
    | error r => rfl
    | ok s1 => exact ih s1

theorem loop_ret_nested {α β σ ρ : Type} (g : α → β → σ → Except ρ σ) (xs : List α)
    (ys : List β) (s : σ) :
    loop_ret (fun i s => loop_ret (g i) ys s) xs s =
      loop_ret (fun (p : α × β) s => g p.1 p.2 s)
        (xs.flatMap (fun i => ys.map (fun j => (i, j)))) s := by
  induction xs generalizing s with
  | nil => rfl
  | cons x xs ih =>
    rw [List.flatMap_cons, loop_ret_append, loop_ret_map]
    simp only [loop_ret]
    cases loop_ret (g x) ys s with
    | error r => rfl
    | ok s1 => exact ih s1

/-- A loop whose body returns early exactly on the elements that satisfy `hit`
runs to its end on a list without such an element. -/
theorem loop_ret_no_hit {α σ ρ : Type} (body : α → σ → Except ρ σ) (I : σ → Prop)
    (hit : α → Prop)
    (hok : ∀ x s, I s → ¬ hit x → ∃ s1, body x s = .ok s1 ∧ I s1) :
    ∀ (xs : List α) (s : σ), I s → (∀ x ∈ xs, ¬ hit x) →
      ∃ s1, loop_ret body xs s = .ok s1 ∧ I s1 := by
  intro xs
  induction xs with
  | nil => intro s hI _; exact ⟨s, rfl, hI⟩
  | cons x xs ih =>
    intro s hI hno
    obtain ⟨s1, h1, hI1⟩ := hok x s hI (hno x (List.mem_cons_self _ _))
    simp only [loop_ret, h1]
    exact ih s1 hI1 (fun y hy => hno y (List.mem_cons_of_mem _ hy))

/-- Such a loop returns the value of the first element that satisfies `hit`. -/
theorem loop_ret_first_hit {α σ ρ : Type} (body : α → σ → Except ρ σ) (I : σ → Prop)
    (hit : α → Prop) (val : α → ρ)
    (hok : ∀ x s, I s → ¬ hit x → ∃ s1, body x s = .ok s1 ∧ I s1)
    (herr : ∀ x s, I s → hit x → body x s = .error (val x))
    (pre : List α) (x : α) (post : List α) (s : σ) (hI : I s)
    (hpre : ∀ y ∈ pre, ¬ hit y) (hx : hit x) :
    loop_ret body (pre ++ x :: post) s = .error (val x) := by
  obtain ⟨s1, h1, hI1⟩ := loop_ret_no_hit body I hit hok pre s hI hpre
  rw [loop_ret_append, h1]
  simp only [loop_ret, herr x s1 hI1 hx]

theorem exists_first_hit {α : Type} (hit : α → Prop) [DecidablePred hit] :
    ∀ xs : List α, (∃ x ∈ xs, hit x) →
      ∃ pre x post, xs = pre ++ x :: post ∧ (∀ y ∈ pre, ¬ hit y) ∧ hit x := by
  intro xs
  induction xs with
  | nil => rintro ⟨x, hx, _⟩; simp at hx
  | cons a xs ih =>
    intro hex
    by_cases ha : hit a
    · exact ⟨[], a, xs, rfl, fun y hy => by simp at hy, ha⟩
    · have : ∃ x ∈ xs, hit x := by
        obtain ⟨x, hx, hh⟩ := hex
        rcases List.mem_cons.mp hx with rfl | hx
        · exact absurd hh ha
        · exact ⟨x, hx, hh⟩
      obtain ⟨pre, x, post, hxs, hpre, hx⟩ := ih this
      refine ⟨a :: pre, x, post, by rw [hxs]; rfl, ?_, hx⟩
      intro y hy
      rcases List.mem_cons.mp hy with rfl | hy
      · exact ha
      · exact hpre y hy

theorem all_cells_flat : all_cells.map (fun p => p.1 * 9 + p.2) = List.range 81 := by
  decide

theorem all_cells_sorted :
    all_cells.Pairwise (fun p q => p.1 * 9 + p.2 < q.1 * 9 + q.2) := by
  have h : (all_cells.map (fun p => p.1 * 9 + p.2)).Pairwise (fun a b => a < b) := by
    rw [all_cells_flat]
    exact List.pairwise_lt_range 81
  exact List.pairwise_map.mp h

/-- In a split of the scan order, the cells before `x` are exactly the cells
with a smaller flat index. -/
theorem all_cells_split (pre post : List (Nat × Nat)) (x : Nat × Nat)
    (h : all_cells = pre ++ x :: post) (p : Nat × Nat) (hp1 : p.1 < 9) (hp2 : p.2 < 9) :
    p ∈ pre ↔ p.1 * 9 + p.2 < x.1 * 9 + x.2 := by
  have hs := all_cells_sorted
  rw [h, List.pairwise_append] at hs
  obtain ⟨_, hs2, hs3⟩ := hs
  rw [List.pairwise_cons] at hs2
  constructor
  · intro hm
    exact hs3 p hm x (List.mem_cons_self _ _)
  · intro hlt
    have hm : p ∈ pre ++ x :: post := by
      rw [← h]; exact (mem_all_cells p).mpr ⟨hp1, hp2⟩
    rcases List.mem_append.mp hm with hm | hm
    · exact hm
    · exfalso
      rcases List.mem_cons.mp hm with rfl | hm
      · omega
      · have := hs2.1 p hm
        omega

theorem cell_hint_cell_ok (su : sudoku) (x : Nat × Nat) (ch : List Int) (hl : ch.length = 9)
    (hno : ¬ naked_single su x.1 x.2) :
    ∃ s1, cell_hint_cell su x.1 x.2 ch = .ok s1 ∧ s1.length = 9 := by
  unfold cell_hint_cell
  by_cases he : sol su (x.1 * DIM + x.2) = EMPTY
  · rw [if_pos he, cell_choices_empty su x.1 x.2 ch he (by omega)]
    have hc : ¬ (cands su x.1 x.2).length = 1 := by
      intro h1
      exact hno ⟨he, by rw [choice_count_empty su _ _ he]; exact h1⟩
    simp only [hc, if_false]
    refine ⟨_, rfl, ?_⟩
    have := cands_length_le su x.1 x.2
    simp only [List.length_append, List.length_drop]
    omega
  · rw [if_neg he]
    exact ⟨ch, rfl, hl⟩

theorem cell_hint_cell_err (su : sudoku) (x : Nat × Nat) (ch : List Int) (hl : ch.length = 9)
    (hx : naked_single su x.1 x.2) : cell_hint_cell su x.1 x.2 ch = .error x := by
  unfold cell_hint_cell
  rw [if_pos hx.1, cell_choices_empty su x.1 x.2 ch hx.1 (by omega)]
  have hc : (cands su x.1 x.2).length = 1 := by
    rw [← choice_count_empty su _ _ hx.1]; exact hx.2
  simp only [hc, if_true]

theorem cell_hint_eq_flat (su : sudoku) (row col : Nat) :
    cell_hint su row col =
      match loop_ret (fun (p : Nat × Nat) ch => cell_hint_cell su p.1 p.2 ch) all_cells
          [0, 0, 0, 0, 0, 0, 0, 0, 0] with
      | .error (i, j) => (true, i, j)
      | .ok _ => (false, row, col) := by
  have h := loop_ret_nested (fun i j ch => cell_hint_cell su i j ch) (List.range 9)
    (List.range 9) [0, 0, 0, 0, 0, 0, 0, 0, 0]
  unfold cell_hint all_cells
  rw [← h]
  try rfl

/-- Without a naked single `cell_hint` returns false and leaves `*row`, `*col` alone. -/
theorem cell_hint_none (su : sudoku) (row col : Nat)
    (hno : ∀ p ∈ all_cells, ¬ naked_single su p.1 p.2) :
    cell_hint su row col = (false, row, col) := by
  obtain ⟨s1, h1, _⟩ := loop_ret_no_hit
    (fun (p : Nat × Nat) ch => cell_hint_cell su p.1 p.2 ch) (fun ch => ch.length = 9)
    (fun p => naked_single su p.1 p.2) (fun x s hI hn => cell_hint_cell_ok su x s hI hn)
    all_cells [0, 0, 0, 0, 0, 0, 0, 0, 0] rfl hno
  rw [cell_hint_eq_flat, h1]

/-- With a naked single `cell_hint` returns the first one in the scan order. -/
theorem cell_hint_first (su : sudoku) (row col : Nat) (pre post : List (Nat × Nat))
    (x : Nat × Nat) (hsplit : all_cells = pre ++ x :: post)
    (hpre : ∀ y ∈ pre, ¬ naked_single su y.1 y.2) (hx : naked_single su x.1 x.2) :
    cell_hint su row col = (true, x.1, x.2) := by
  have h1 := loop_ret_first_hit
    (fun (p : Nat × Nat) ch => cell_hint_cell su p.1 p.2 ch) (fun ch => ch.length = 9)
    (fun p => naked_single su p.1 p.2) (fun p => p)
    (fun x s hI hn => cell_hint_cell_ok su x s hI hn)
    (fun x s hI hh => cell_hint_cell_err su x s hI hh)
    pre x post [0, 0, 0, 0, 0, 0, 0, 0, 0] rfl hpre hx
  rw [cell_hint_eq_flat, hsplit, h1]

theorem cell_hint_of_first (su : sudoku) (row col i j : Nat)
    (h : first_naked_single su i j) : cell_hint su row col = (true, i, j) := by
  obtain ⟨hi, hj, hns, hfirst⟩ := h
  have hm : (i, j) ∈ all_cells := (mem_all_cells (i, j)).mpr ⟨hi, hj⟩
  obtain ⟨pre, post, hsplit⟩ := List.append_of_mem hm
  refine cell_hint_first su row col pre post (i, j) hsplit ?_ hns
  intro y hy
  have hyc : y ∈ all_cells := by rw [hsplit]; exact List.mem_append_left _ hy
  have hy9 := (mem_all_cells y).mp hyc
  exact hfirst y.1 hy9.1 y.2 hy9.2
    ((all_cells_split pre post (i, j) hsplit y hy9.1 hy9.2).mp hy)

theorem cell_hint_cases (su : sudoku) (row col : Nat) :
    (cell_hint su row col = (false, row, col) ∧
      ∀ i j, i < 9 → j < 9 → ¬ naked_single su i j) ∨
    ∃ i j, first_naked_single su i j ∧ cell_hint su row col = (true, i, j) := by
  by_cases hex : ∃ p ∈ all_cells, naked_single su p.1 p.2
  · right
    obtain ⟨pre, x, post, hsplit, hpre, hx⟩ :=
      exists_first_hit (fun p : Nat × Nat => naked_single su p.1 p.2) all_cells hex
    have hxc : x ∈ all_cells := by rw [hsplit]; simp
    have hx9 := (mem_all_cells x).mp hxc
    refine ⟨x.1, x.2, ⟨hx9.1, hx9.2, hx, ?_⟩, cell_hint_first su row col pre post x hsplit hpre hx⟩
    intro i1 hi1 j1 hj1 hlt
    exact hpre (i1, j1) ((all_cells_split pre post x hsplit (i1, j1) hi1 hj1).mpr hlt)
  · left
    push_neg at hex
    exact ⟨cell_hint_none su row col hex,
      fun i j hi hj => hex (i, j) ((mem_all_cells (i, j)).mpr ⟨hi, hj⟩)⟩

/-- The candidates of a cell for which exactly one digit of 1..9 passes. -/
theorem cands_single (su : sudoku) (i j : Nat) (d : Int) (hd1 : 1 ≤ d) (hd9 : d ≤ 9)
    (h : ∀ e, 1 ≤ e → e ≤ 9 → (pass su i j e = true ↔ e = d)) :
    (cands su i j).length = 1 := by
  unfold cands
  have hcongr : digits.filter (fun e => pass su i j e) = digits.filter (fun e => e == d) := by
    apply List.filter_congr
    intro e he
    have hr := (mem_digits e).mp he
    have := h e hr.1 hr.2
    show pass su i j e = (e == d)
    by_cases hp : pass su i j e = true
    · have hed := this.mp hp
      rw [hp, hed]
      simp
    · have hne : ¬ e = d := fun e1 => hp (this.mpr e1)
      rw [Bool.not_eq_true] at hp
      rw [hp]
      simp [hne]
  rw [hcongr]
  have : (digits.filter (fun e => e == d)).length = digits.count d := by
    rw [List.count_eq_countP, List.countP_eq_length_filter]
  rw [this]
  exact List.count_eq_one_of_mem digits_nodup ((mem_digits d).mpr ⟨hd1, hd9⟩)

/-- C11. `cell_hint` returns true with `(*row, *col) = (i, j)` exactly when
`(i, j)` is the first cell in row-major order that is empty and for which
`cell_choices` returns 1; when no empty cell has exactly one candidate it returns
false and leaves `*row` and `*col` as they were (and only then does it return
false).  It takes the state read-only and returns no state, so the grid is not
modified.  In particular, when `(i, j)` is the only empty cell and exactly one
digit passes there, `cell_hint` returns that cell. -/
theorem cell_hint_spec (su : sudoku) (row col i j : Nat) :
    (cell_hint su row col = (true, i, j) ↔ first_naked_single su i j) ∧
    ((∀ i1 j1, i1 < 9 → j1 < 9 → ¬ naked_single su i1 j1) →
      cell_hint su row col = (false, row, col)) ∧
    ((cell_hint su row col).1 = false →
      cell_hint su row col = (false, row, col) ∧
        ∀ i1 j1, i1 < 9 → j1 < 9 → ¬ naked_single su i1 j1) ∧
    (i < 9 → j < 9 → sol su (i * DIM + j) = EMPTY →
      (∀ r c, r < 9 → c < 9 → (r ≠ i ∨ c ≠ j) → sol su (r * DIM + c) ≠ EMPTY) →
      (∃ d, 1 ≤ d ∧ d ≤ 9 ∧ ∀ e, 1 ≤ e → e ≤ 9 → (pass su i j e = true ↔ e = d)) →
      cell_hint su row col = (true, i, j)) := by
  have hcases := cell_hint_cases su row col
  refine ⟨⟨?_, cell_hint_of_first su row col i j⟩, ?_, ?_, ?_⟩
  · intro h
    rcases hcases with ⟨hf, _⟩ | ⟨i1, j1, hfirst, ht⟩
    · rw [hf] at h
      simp at h
    · rw [ht] at h
      simp only [Prod.mk.injEq, true_and] at h
      rw [← h.1, ← h.2]
      exact hfirst
  · intro hno
    rcases hcases with ⟨hf, _⟩ | ⟨i1, j1, hfirst, _⟩
    · exact hf
    · exact absurd hfirst.2.2.1 (hno i1 j1 hfirst.1 hfirst.2.1)
  · intro hfalse
    rcases hcases with h | ⟨i1, j1, _, ht⟩
    · exact h
    · rw [ht] at hfalse
      simp at hfalse
  · intro hi hj he hothers ⟨d, hd1, hd9, hd⟩
    apply cell_hint_of_first
    refine ⟨hi, hj, ⟨he, ?_⟩, ?_⟩
    · rw [choice_count_empty su i j he]
      exact cands_single su i j d hd1 hd9 hd
    · intro i1 hi1 j1 hj1 hlt hns
      exact hothers i1 j1 hi1 hj1 (by omega) hns.1

theorem cell_hint_spec_witness : first_naked_single ⟨grid_hole, grid_hole⟩ 4 4 :=
  (cell_hint_spec ⟨grid_hole, grid_hole⟩ 0 0 4 4).1.mp (by decide)

end Sudoku
